import Mathlib

/-!
Verification of the sorted-linked-list set and priority-queue library
(`set_sequential.h`, `set_coarse.h`, `set_fine.h`, `pq_fine.h`).

The C++ collections are singly linked chains of heap nodes with sentinel
head/tail nodes.  We embed the heap shallowly: memory is a list of nodes,
a pointer is an index into that list, and the C++ null pointer is `none`
in an `Option Nat`.  Deleting a node leaves it in memory as unreachable
garbage, which matches the fact that the C++ `delete` only recycles
storage that the chain no longer references.  All claims are about the
sequential (single-thread / quiescent) semantics of the operations; the
lock acquisitions of the coarse and fine variants are no-ops in that
semantics and are not modelled.

Traversal loops are modelled with explicit fuel (`mem.length + 1`
always suffices on well-formed states); a traversal that would
dereference a null or dangling pointer, or fail to terminate, yields an
error value (`Except.error` at operation level), matching the
`std::runtime_error` branch of `find_and_lock_hoh`, the failing
`assert`s of `pq_fine.h`, and undefined behaviour of the unchecked
variants.
-/

/-- A linked-list node: the stored value plus the `next` pointer
(`none` = `nullptr`).  Mirrors `SeqNode` / `CoarseNode` / `FineNode` /
`FinePQNode` (the per-node mutex of the fine variants has no sequential
semantics and is not modelled). -/
structure Node (α : Type) where
  val : α
  next : Option Nat
deriving Repr, DecidableEq

/-- The state of one collection object: node memory, the `head` and
`tail` sentinel pointers, and the `current_size` counter (`sz`).  The
sequential set has no size counter; its operations simply never touch
`sz`. -/
structure LState (α : Type) where
  mem : List (Node α)
  head : Nat
  tail : Nat
  sz : Nat
deriving Repr, DecidableEq

/-- Dereference a pointer: `some` node or `none` for a dangling index. -/
def getNode (s : LState α) (i : Nat) : Option (Node α) :=
  s.mem.get? i

/-- `p->val`. -/
def valAt (s : LState α) (i : Nat) : Option α :=
  (getNode s i).map Node.val

/-- `p->next`. -/
def nextAt (s : LState α) (i : Nat) : Option Nat :=
  (getNode s i).bind Node.next

/-- Write the `next` field of node `i` (out-of-range writes are no-ops;
they never occur on well-formed states). -/
def setNextMem (l : List (Node α)) (i : Nat) (nn : Option Nat) : List (Node α) :=
  match l, i with
  | [], _ => []
  | nd :: rest, 0 => { nd with next := nn } :: rest
  | nd :: rest, k + 1 => nd :: setNextMem rest k nn

/-- `i->next = nn` as a state update. -/
def setNext (s : LState α) (i : Nat) (nn : Option Nat) : LState α :=
  { s with mem := setNextMem s.mem i nn }

/-- The comparison `a < b` on `int`, the element order used by every set
variant. -/
def intLt (a b : Int) : Bool := decide (a < b)

/-- `numeric_limits<int>::lowest()`: the head sentinel value of the set
variants. -/
def INTMIN : Int := -(2 ^ 31)

/-- `numeric_limits<int>::max()`: the tail sentinel value of the set
variants. -/
def INTMAX : Int := 2 ^ 31 - 1

/-- The hand-over-hand search loop shared by `find_node`
(`set_sequential.h`), `find_node_unsafe` (`set_coarse.h`),
`find_and_lock_hoh` (`set_fine.h`) and `find_and_lock_for_push`
(`pq_fine.h`): `while (curr != tail && lt(curr->val, v)) { pred = curr;
curr = curr->next; }`, returning the pair `(pred, curr)`.  A null or
dangling `curr` (the thrown `runtime_error` of the fine set, the failed
`assert` of the PQ, undefined behaviour of the others) and fuel
exhaustion are both `none`. -/
def findLoop (lt : α → α → Bool) (s : LState α) (v : α) :
    Nat → Nat → Nat → Option (Nat × Nat)
  | 0, _, _ => none
  | fuel + 1, pred, curr =>
    if curr = s.tail then some (pred, curr)
    else
      match valAt s curr with
      | none => none
      | some x =>
        if lt x v then
          match nextAt s curr with
          | none => none
          | some c2 => findLoop lt s v fuel curr c2
        else some (pred, curr)

/-- Entry to the search: `pred = head; curr = head->next;` then the
loop.  A null `head->next` is an immediate error. -/
def findHoh (lt : α → α → Bool) (s : LState α) (v : α) : Option (Nat × Nat) :=
  match nextAt s s.head with
  | none => none
  | some c0 => findLoop lt s v (s.mem.length + 1) s.head c0

/-- `SortedLinkedList_FineLock::find_and_lock_hoh` (sequential
semantics; the hand-over-hand lock choreography has no effect in a
single-thread run). -/
def find_and_lock_hoh (s : LState Int) (v : Int) : Option (Nat × Nat) :=
  findHoh intLt s v

/-- Error message of the null branch of `find_and_lock_hoh`. -/
def nullErr : String := "Fine-grained search encountered null node before tail."

/-- Error message of the `bad_alloc` wrapper in `add`. -/
def allocErr : String := "Failed node allocation in add: std::bad_alloc"

/-- `SortedLinkedList_FineLock::contains`. -/
def fineContains (s : LState Int) (v : Int) : Except String Bool × LState Int :=
  match find_and_lock_hoh s v with
  | none => (Except.error nullErr, s)
  | some (_, curr) =>
    (Except.ok (decide (curr ≠ s.tail ∧ valAt s curr = some v)), s)

/-- `SortedLinkedList_FineLock::add`, with an explicit allocation
oracle: `allocOk = false` makes `new FineNode` throw `bad_alloc`, which
`add` rewraps as a `runtime_error` after releasing its locks. -/
def fineAddA (allocOk : Bool) (s : LState Int) (v : Int) :
    Except String Bool × LState Int :=
  match find_and_lock_hoh s v with
  | none => (Except.error nullErr, s)
  | some (pred, curr) =>
    if curr ≠ s.tail ∧ valAt s curr = some v then
      (Except.ok false, s)
    else if allocOk then
      let newId := s.mem.length
      let s1 : LState Int := { s with mem := s.mem ++ [⟨v, some curr⟩] }
      let s2 := setNext s1 pred (some newId)
      (Except.ok true, { s2 with sz := s2.sz + 1 })
    else
      (Except.error allocErr, s)

/-- `add` when allocation succeeds. -/
def fineAdd (s : LState Int) (v : Int) : Except String Bool × LState Int :=
  fineAddA true s v

/-- `SortedLinkedList_FineLock::remove`.  The unlinked node stays in
memory as garbage (its C++ storage is freed after the locks drop, but
the chain no longer reaches it). -/
def fineRemove (s : LState Int) (v : Int) : Except String Bool × LState Int :=
  match find_and_lock_hoh s v with
  | none => (Except.error nullErr, s)
  | some (pred, curr) =>
    if curr ≠ s.tail ∧ valAt s curr = some v then
      let s1 := setNext s pred (nextAt s curr)
      (Except.ok true, { s1 with sz := s1.sz - 1 })
    else
      (Except.ok false, s)

/-- `SortedLinkedList_FineLock::size`: read of the atomic counter. -/
def fineSize (s : LState Int) : Nat := s.sz

/-- Construction shared by `set_sequential.h`, `set_coarse.h` and
`set_fine.h`: `tail = new Node(INT_MAX, nullptr); head = new
Node(INT_MIN, tail);` so the tail sentinel is node 0 and the head
sentinel node 1. -/
def setNew : LState Int :=
  { mem := [⟨INTMAX, none⟩, ⟨INTMIN, some 0⟩], head := 1, tail := 0, sz := 0 }

/-- `SortedLinkedList_Sequential::contains` (`find_node` then the same
membership test; traversal through a corrupt chain is undefined
behaviour, modelled as an error). -/
def seqContains (s : LState Int) (v : Int) : Except String Bool × LState Int :=
  match findHoh intLt s v with
  | none => (Except.error "UB", s)
  | some (_, curr) =>
    (Except.ok (decide (curr ≠ s.tail ∧ valAt s curr = some v)), s)

/-- `SortedLinkedList_Sequential::add` with allocation oracle.  The
sequential set keeps no size counter, so `sz` is untouched. -/
def seqAddA (allocOk : Bool) (s : LState Int) (v : Int) :
    Except String Bool × LState Int :=
  match findHoh intLt s v with
  | none => (Except.error "UB", s)
  | some (pred, curr) =>
    if curr ≠ s.tail ∧ valAt s curr = some v then
      (Except.ok false, s)
    else if allocOk then
      let newId := s.mem.length
      let s1 : LState Int := { s with mem := s.mem ++ [⟨v, some curr⟩] }
      (Except.ok true, setNext s1 pred (some newId))
    else
      (Except.error allocErr, s)

/-- `add` of the sequential set when allocation succeeds. -/
def seqAdd (s : LState Int) (v : Int) : Except String Bool × LState Int :=
  seqAddA true s v

/-- `SortedLinkedList_Sequential::remove`. -/
def seqRemove (s : LState Int) (v : Int) : Except String Bool × LState Int :=
  match findHoh intLt s v with
  | none => (Except.error "UB", s)
  | some (pred, curr) =>
    if curr ≠ s.tail ∧ valAt s curr = some v then
      (Except.ok true, setNext s pred (nextAt s curr))
    else
      (Except.ok false, s)

/-- Loop of `SortedLinkedList_Sequential::size`: count the nodes
strictly between the sentinels. -/
def seqSizeLoop (s : LState Int) : Nat → Nat → Nat → Option Nat
  | 0, _, _ => none
  | fuel + 1, curr, acc =>
    if curr = s.tail then some acc
    else
      match nextAt s curr with
      | none => none
      | some c2 => seqSizeLoop s fuel c2 (acc + 1)

/-- `SortedLinkedList_Sequential::size`: `count = 0; current =
head->next; while (current != tail) { count++; current =
current->next; }`. -/
def seqSize (s : LState Int) : Option Nat :=
  match nextAt s s.head with
  | none => none
  | some c0 => seqSizeLoop s (s.mem.length + 1) c0 0

/-- `SortedLinkedList_CoarseLock::find_node_unsafe`: the shared search
loop, returning only `pred` (its caller reads `curr` back out of
`pred->next`). -/
def find_node_unsafe (s : LState Int) (v : Int) : Option Nat :=
  (findHoh intLt s v).map Prod.fst

/-- `SortedLinkedList_CoarseLock::contains`. -/
def coarseContains (s : LState Int) (v : Int) : Except String Bool × LState Int :=
  match find_node_unsafe s v with
  | none => (Except.error "UB", s)
  | some pred =>
    match nextAt s pred with
    | none => (Except.error "UB", s)
    | some curr =>
      (Except.ok (decide (curr ≠ s.tail ∧ valAt s curr = some v)), s)

/-- `SortedLinkedList_CoarseLock::add` with allocation oracle. -/
def coarseAddA (allocOk : Bool) (s : LState Int) (v : Int) :
    Except String Bool × LState Int :=
  match find_node_unsafe s v with
  | none => (Except.error "UB", s)
  | some pred =>
    match nextAt s pred with
    | none => (Except.error "UB", s)
    | some curr =>
      if curr ≠ s.tail ∧ valAt s curr = some v then
        (Except.ok false, s)
      else if allocOk then
        let newId := s.mem.length
        let s1 : LState Int := { s with mem := s.mem ++ [⟨v, some curr⟩] }
        let s2 := setNext s1 pred (some newId)
        (Except.ok true, { s2 with sz := s2.sz + 1 })
      else
        (Except.error allocErr, s)

/-- `add` of the coarse set when allocation succeeds. -/
def coarseAdd (s : LState Int) (v : Int) : Except String Bool × LState Int :=
  coarseAddA true s v

/-- `SortedLinkedList_CoarseLock::remove`. -/
def coarseRemove (s : LState Int) (v : Int) : Except String Bool × LState Int :=
  match find_node_unsafe s v with
  | none => (Except.error "UB", s)
  | some pred =>
    match nextAt s pred with
    | none => (Except.error "UB", s)
    | some curr =>
      if curr ≠ s.tail ∧ valAt s curr = some v then
        let s1 := setNext s pred (nextAt s curr)
        (Except.ok true, { s1 with sz := s1.sz - 1 })
      else
        (Except.ok false, s)

/-- `SortedLinkedList_CoarseLock::size`. -/
def coarseSize (s : LState Int) : Nat := s.sz

/-- Loop of the `check_invariants` shared by the three set variants:
null before tail fails, an inversion `pred->val > curr->val` fails, and
the final node must point at `tail`.  No size audit. -/
def setCheckLoop (s : LState Int) : Nat → Nat → Nat → Bool
  | 0, _, _ => false
  | fuel + 1, pred, curr =>
    if curr = s.tail then
      decide (nextAt s pred = some s.tail)
    else
      match getNode s curr with
      | none => false
      | some cn =>
        match valAt s pred with
        | none => false
        | some pv =>
          if decide (pv > cn.val) then false
          else
            match cn.next with
            | none => false
            | some c2 => setCheckLoop s fuel curr c2

/-- `check_invariants` of `SortedLinkedList_FineLock` (the bodies in
`set_sequential.h` and `set_coarse.h` are identical): checks sorted
order and that the walk from `head` reaches `tail`, but never consults
`current_size`. -/
def fineCheckInv (s : LState Int) : Bool :=
  match nextAt s s.head with
  | none => false
  | some c0 => setCheckLoop s (s.mem.length + 1) s.head c0

/-- `SortedLinkedList_CoarseLock::check_invariants` (same body). -/
def coarseCheckInv (s : LState Int) : Bool :=
  match nextAt s s.head with
  | none => false
  | some c0 => setCheckLoop s (s.mem.length + 1) s.head c0

/-- `SortedLinkedList_Sequential::check_invariants` (same body). -/
def seqCheckInv (s : LState Int) : Bool :=
  match nextAt s s.head with
  | none => false
  | some c0 => setCheckLoop s (s.mem.length + 1) s.head c0

/-- `SortedLinkedList_FineLockPQ::find_and_lock_for_push`: the same
loop, driven by the user comparator `cmp` (`comp(a, b)` = "`a` is less
than `b`").  It stops at the first node whose value is *not less than*
`v`; in particular it stops at the first node of equal priority. -/
def find_and_lock_for_push (cmp : α → α → Bool) (s : LState α) (v : α) :
    Option (Nat × Nat) :=
  findHoh cmp s v

/-- `SortedLinkedList_FineLockPQ::push` with allocation oracle.  The
node is allocated *before* the search (`new FinePQNode<T>(val)`, with
`next = nullptr`); on `bad_alloc` the exception propagates with the
state untouched.  After the search the links `new_node->next = curr;
pred->next = new_node;` are written and `current_size` incremented. -/
def pqPushA (cmp : α → α → Bool) (allocOk : Bool) (s : LState α) (v : α) :
    Except String Unit × LState α :=
  if allocOk then
    let newId := s.mem.length
    let s0 : LState α := { s with mem := s.mem ++ [⟨v, none⟩] }
    match find_and_lock_for_push cmp s0 v with
    | none => (Except.error "assert curr != nullptr", s)
    | some (pred, curr) =>
      let s1 := setNext s0 newId (some curr)
      let s2 := setNext s1 pred (some newId)
      (Except.ok (), { s2 with sz := s2.sz + 1 })
  else
    (Except.error "bad_alloc", s)

/-- `push` when allocation succeeds. -/
def pqPush (cmp : α → α → Bool) (s : LState α) (v : α) :
    Except String Unit × LState α :=
  pqPushA cmp true s v

/-- Loop of `SortedLinkedList_FineLockPQ::pop`: walk `node_to_delete`
forward until `node_to_delete->next == tail`, keeping `pred_pred` one
step behind; then unlink (`pred_pred->next = tail`), decrement the
counter and return the victim's value.  A null `next` before `tail`
fails the `assert`. -/
def popLoop (s : LState α) : Nat → Nat → Nat → Except String (Option α) × LState α
  | 0, _, _ => (Except.error "fuel", s)
  | fuel + 1, pp, nd =>
    match getNode s nd with
    | none => (Except.error "assert", s)
    | some ndN =>
      match ndN.next with
      | none => (Except.error "assert next_node != nullptr", s)
      | some nxt =>
        if nxt = s.tail then
          let s1 := setNext s pp (some s.tail)
          (Except.ok (some ndN.val), { s1 with sz := s1.sz - 1 })
        else
          popLoop s fuel nd nxt

/-- `SortedLinkedList_FineLockPQ::pop`: empty queue (head's successor
is the tail sentinel) returns `none`; otherwise remove the node
immediately before `tail`. -/
def pqPop (s : LState α) : Except String (Option α) × LState α :=
  match nextAt s s.head with
  | none => (Except.error "assert node_to_delete != nullptr", s)
  | some nd0 =>
    if nd0 = s.tail then (Except.ok none, s)
    else popLoop s (s.mem.length + 1) s.head nd0

/-- `SortedLinkedList_FineLockPQ::size`. -/
def pqSize (s : LState α) : Nat := s.sz

/-- `SortedLinkedList_FineLockPQ::empty`. -/
def pqEmpty (s : LState α) : Bool := decide (s.sz = 0)

/-- Loop of `SortedLinkedList_FineLockPQ::check_invariants`: the
asserts become `false` results (their debug-build behaviour): no null
before `tail`, no inversion `comp(curr->val, pred->val)`, the last node
must point at `tail`, and the traversal count must equal
`current_size`. -/
def pqCheckLoop (cmp : α → α → Bool) (s : LState α) :
    Nat → Nat → Nat → Nat → Bool
  | 0, _, _, _ => false
  | fuel + 1, pred, curr, count =>
    if curr = s.tail then
      decide (nextAt s pred = some s.tail) && decide (count = s.sz)
    else
      match getNode s curr with
      | none => false
      | some cn =>
        match valAt s pred with
        | none => false
        | some pv =>
          if cmp cn.val pv then false
          else
            match cn.next with
            | none => false
            | some c2 => pqCheckLoop cmp s fuel curr c2 (count + 1)

/-- `SortedLinkedList_FineLockPQ::check_invariants`. -/
def pqCheckInv (cmp : α → α → Bool) (s : LState α) : Bool :=
  match nextAt s s.head with
  | none => false
  | some c0 => pqCheckLoop cmp s (s.mem.length + 1) s.head c0 0

/-- `SortedLinkedList_FineLockPQ` construction: `head = new
FinePQNode<T>(); tail = new FinePQNode<T>();` (head is node 0, tail
node 1), the sentinel values `lowest()` / `max()` are placement-new'ed
in, and `head->next = tail`. -/
def pqNew (minv maxv : α) : LState α :=
  { mem := [⟨minv, some 1⟩, ⟨maxv, none⟩], head := 0, tail := 1, sz := 0 }

/-- Observer: the values of the data nodes (the chain between the
sentinels), in chain order; `none` on a corrupt chain. -/
def chainDataLoop (s : LState α) : Nat → Nat → Option (List α)
  | 0, _ => none
  | fuel + 1, curr =>
    if curr = s.tail then some []
    else
      match getNode s curr with
      | none => none
      | some nd =>
        match nd.next with
        | none => none
        | some c2 => (chainDataLoop s fuel c2).map (fun l => nd.val :: l)

/-- The data values currently in the chain, head side first. -/
def chainData (s : LState α) : Option (List α) :=
  match nextAt s s.head with
  | none => none
  | some c0 => chainDataLoop s (s.mem.length + 1) c0

/-- One client call on a priority queue. -/
inductive PQOp (α : Type) where
  | push (v : α)
  | pop
deriving Repr, DecidableEq

/-- Run a sequence of PQ operations, collecting the result of every
`pop`. -/
def runPQ (cmp : α → α → Bool) : LState α → List (PQOp α) →
    List (Except String (Option α))
  | _, [] => []
  | s, PQOp.push v :: rest => runPQ cmp (pqPush cmp s v).2 rest
  | s, PQOp.pop :: rest => (pqPop s).1 :: runPQ cmp (pqPop s).2 rest

/-- Reference model for FIFO behaviour: a plain queue (push appends at
the back, pop takes the front). -/
def runFIFO : List α → List (PQOp α) → List (Option α)
  | _, [] => []
  | q, PQOp.push v :: rest => runFIFO (q ++ [v]) rest
  | [], PQOp.pop :: rest => none :: runFIFO [] rest
  | x :: q, PQOp.pop :: rest => some x :: runFIFO q rest

/-- States of the fine-locked set reachable from construction by a
sequential run of `add` / `remove` / `contains`.  `add` arguments are
`int` values, hence within the sentinel range. -/
inductive SetReach : LState Int → Prop where
  | init : SetReach setNew
  | add (s : LState Int) (v : Int) (h1 : INTMIN ≤ v) (h2 : v ≤ INTMAX) :
      SetReach s → SetReach (fineAdd s v).2
  | rem (s : LState Int) (v : Int) : SetReach s → SetReach (fineRemove s v).2
  | con (s : LState Int) (v : Int) : SetReach s → SetReach (fineContains s v).2

/-- Reachable states of the sequential set. -/
inductive SeqReach : LState Int → Prop where
  | init : SeqReach setNew
  | add (s : LState Int) (v : Int) (h1 : INTMIN ≤ v) (h2 : v ≤ INTMAX) :
      SeqReach s → SeqReach (seqAdd s v).2
  | rem (s : LState Int) (v : Int) : SeqReach s → SeqReach (seqRemove s v).2
  | con (s : LState Int) (v : Int) : SeqReach s → SeqReach (seqContains s v).2

/-- Reachable states of the coarse-locked set. -/
inductive CoarseReach : LState Int → Prop where
  | init : CoarseReach setNew
  | add (s : LState Int) (v : Int) (h1 : INTMIN ≤ v) (h2 : v ≤ INTMAX) :
      CoarseReach s → CoarseReach (coarseAdd s v).2
  | rem (s : LState Int) (v : Int) : CoarseReach s → CoarseReach (coarseRemove s v).2
  | con (s : LState Int) (v : Int) : CoarseReach s → CoarseReach (coarseContains s v).2

/-- Reachable states of the fine-locked priority queue with comparator
`cmp` and sentinel values `minv` / `maxv`.  Pushed values lie within
the sentinel bracket (`numeric_limits` guarantees this for the C++
element type): not below `lowest()`, not above `max()`. -/
inductive PQReach (cmp : α → α → Bool) (minv maxv : α) : LState α → Prop where
  | init : PQReach cmp minv maxv (pqNew minv maxv)
  | push (s : LState α) (v : α) (h1 : cmp v minv = false) (h2 : cmp maxv v = false) :
      PQReach cmp minv maxv s → PQReach cmp minv maxv (pqPush cmp s v).2
  | pop (s : LState α) : PQReach cmp minv maxv s → PQReach cmp minv maxv (pqPop s).2

/-! ## Chain representation predicate -/

/-- `walks s p l q`: starting from pointer `p`, the chain visits
exactly the nodes in `l` (id paired with stored value) and its final
`next` pointer is `q`. -/
def walks (s : LState α) : Option Nat → List (Nat × α) → Option Nat → Prop
  | p, [], q => p = q
  | p, (i, x) :: rest, q => p = some i ∧ valAt s i = some x ∧ walks s (nextAt s i) rest q

@[simp] theorem walks_nil {s : LState α} {p q : Option Nat} :
    walks s p [] q ↔ p = q := Iff.rfl

@[simp] theorem walks_cons {s : LState α} {p q : Option Nat} {i : Nat} {x : α}
    {rest : List (Nat × α)} :
    walks s p ((i, x) :: rest) q ↔
      p = some i ∧ valAt s i = some x ∧ walks s (nextAt s i) rest q := Iff.rfl

theorem walks_append {s : LState α} {p q : Option Nat} {l1 l2 : List (Nat × α)} :
    walks s p (l1 ++ l2) q ↔ ∃ r, walks s p l1 r ∧ walks s r l2 q := by
  induction l1 generalizing p with
  | nil => simp
  | cons hd tl ih =>
    obtain ⟨i, x⟩ := hd
    simp [ih, and_assoc]

/-- A well-founded chain's representation is determined by its memory
reads: a state agreeing on every visited node carries the same walk. -/
theorem walks_congr {s s' : LState α} {p q : Option Nat} {l : List (Nat × α)}
    (hag : ∀ i ∈ l.map Prod.fst, getNode s' i = getNode s i)
    (hw : walks s p l q) : walks s' p l q := by
  induction l generalizing p with
  | nil => exact hw
  | cons hd tl ih =>
    obtain ⟨i, x⟩ := hd
    obtain ⟨hp, hv, hrest⟩ := hw
    have hgi : getNode s' i = getNode s i := hag i (by simp)
    refine ⟨hp, ?_, ?_⟩
    · simpa [valAt, hgi] using hv
    · have hnx : nextAt s' i = nextAt s i := by simp [nextAt, hgi]
      rw [hnx]
      exact ih (fun j hj => hag j (by simp [hj])) hrest

/-- From a given start pointer, the full walk (ending in null) is
unique. -/
theorem walks_unique {s : LState α} {p : Option Nat} :
    ∀ {l1 l2 : List (Nat × α)}, walks s p l1 none → walks s p l2 none → l1 = l2 := by
  intro l1
  induction l1 generalizing p with
  | nil =>
    intro l2 h1 h2
    cases l2 with
    | nil => rfl
    | cons hd tl =>
      obtain ⟨j, y⟩ := hd
      obtain ⟨hp, -, -⟩ := h2
      simp [walks] at h1
      exact absurd (h1 ▸ hp) (by simp)
  | cons hd tl ih =>
    intro l2 h1 h2
    obtain ⟨i, x⟩ := hd
    obtain ⟨hp, hv, hrest⟩ := h1
    cases l2 with
    | nil =>
      simp [walks] at h2
      exact absurd (h2 ▸ hp) (by simp)
    | cons hd2 tl2 =>
      obtain ⟨j, y⟩ := hd2
      obtain ⟨hp2, hv2, hrest2⟩ := h2
      have hij : i = j := Option.some.inj (hp ▸ hp2 : some i = some j)
      subst hij
      have hxy : x = y := Option.some.inj (hv ▸ hv2 : some x = some y)
      subst hxy
      rw [ih hrest hrest2]

/-- Node ids along a full walk are distinct. -/
theorem walks_nodup {s : LState α} {p : Option Nat} :
    ∀ {l : List (Nat × α)}, walks s p l none → (l.map Prod.fst).Nodup := by
  intro l
  induction l generalizing p with
  | nil => intro _; simp
  | cons hd tl ih =>
    intro hw
    obtain ⟨i, x⟩ := hd
    obtain ⟨hp, hv, hrest⟩ := hw
    have htl : (tl.map Prod.fst).Nodup := ih hrest
    simp only [List.map_cons, List.nodup_cons]
    refine ⟨?_, htl⟩
    intro hmem
    obtain ⟨⟨i', y⟩, hi'mem, hfst⟩ := List.mem_map.mp hmem
    simp only at hfst
    rw [hfst] at hi'mem
    obtain ⟨u, w, hsplit⟩ := List.append_of_mem hi'mem
    have h1 : walks s (nextAt s i) (u ++ (i, y) :: w) none := hsplit ▸ hrest
    rw [walks_append] at h1
    obtain ⟨r, hu, hw2⟩ := h1
    obtain ⟨hr, hv2, hrest2⟩ := hw2
    have h1' : walks s (nextAt s i) (u ++ (i, y) :: w) none := hsplit ▸ hrest
    have heq := walks_unique h1' hrest2
    have hlen := congrArg List.length heq
    simp at hlen
    omega

/-- Every visited node id is a valid index. -/
theorem walks_bound {s : LState α} {p q : Option Nat} {l : List (Nat × α)}
    (hw : walks s p l q) : ∀ i ∈ l.map Prod.fst, i < s.mem.length := by
  induction l generalizing p with
  | nil => simp
  | cons hd tl ih =>
    obtain ⟨i, x⟩ := hd
    obtain ⟨hp, hv, hrest⟩ := hw
    intro j hj
    simp only [List.map_cons, List.mem_cons] at hj
    rcases hj with hj | hj
    · subst hj
      by_contra hge
      have hnone : getNode s j = none := by
        simp only [getNode]
        exact List.get?_eq_none.mpr (by omega)
      simp [valAt, hnone] at hv
    · exact ih hrest j hj

/-- A list of distinct indices below `n` has at most `n` elements. -/
theorem nodup_bound_length {l : List Nat} {n : Nat}
    (hnd : l.Nodup) (hb : ∀ i ∈ l, i < n) : l.length ≤ n := by
  have hsub : l.toFinset ⊆ Finset.range n := by
    intro i hi
    simp only [List.mem_toFinset] at hi
    exact Finset.mem_range.mpr (hb i hi)
  have hcard := Finset.card_le_card hsub
  rwa [List.toFinset_card_of_nodup hnd, Finset.card_range] at hcard

/-! ## Memory update lemmas -/

theorem setNextMem_get (l : List (Node α)) (i : Nat) (nn : Option Nat) :
    ∀ j, (setNextMem l i nn).get? j =
      if i = j then (l.get? j).map (fun nd => { nd with next := nn })
      else l.get? j := by
  induction l generalizing i with
  | nil => intro j; simp [setNextMem]
  | cons hd tl ih =>
    intro j
    cases i with
    | zero =>
      cases j with
      | zero => simp [setNextMem]
      | succ k => simp [setNextMem]
    | succ m =>
      cases j with
      | zero => simp [setNextMem]
      | succ k => simpa [setNextMem] using ih m k

@[simp] theorem setNext_head (s : LState α) (i : Nat) (nn : Option Nat) :
    (setNext s i nn).head = s.head := rfl

@[simp] theorem setNext_tail (s : LState α) (i : Nat) (nn : Option Nat) :
    (setNext s i nn).tail = s.tail := rfl

@[simp] theorem setNext_sz (s : LState α) (i : Nat) (nn : Option Nat) :
    (setNext s i nn).sz = s.sz := rfl

theorem setNextMem_length (l : List (Node α)) (i : Nat) (nn : Option Nat) :
    (setNextMem l i nn).length = l.length := by
  induction l generalizing i with
  | nil => simp [setNextMem]
  | cons hd tl ih =>
    cases i with
    | zero => simp [setNextMem]
    | succ m => simp [setNextMem, ih]

@[simp] theorem setNext_mem_length (s : LState α) (i : Nat) (nn : Option Nat) :
    (setNext s i nn).mem.length = s.mem.length := setNextMem_length ..

theorem getNode_setNext_ne {s : LState α} {i j : Nat} (nn : Option Nat)
    (h : i ≠ j) : getNode (setNext s i nn) j = getNode s j := by
  unfold getNode setNext
  rw [setNextMem_get, if_neg h]

theorem valAt_setNext (s : LState α) (i : Nat) (nn : Option Nat) (j : Nat) :
    valAt (setNext s i nn) j = valAt s j := by
  unfold valAt getNode setNext
  rw [setNextMem_get]
  by_cases h : i = j
  · rw [if_pos h]
    cases s.mem.get? j <;> simp
  · rw [if_neg h]

theorem nextAt_setNext_self {s : LState α} {i : Nat} (nn : Option Nat)
    (h : i < s.mem.length) : nextAt (setNext s i nn) i = nn := by
  unfold nextAt getNode setNext
  rw [setNextMem_get, if_pos rfl]
  obtain ⟨nd, hnd⟩ : ∃ nd, s.mem.get? i = some nd := by
    rw [List.get?_eq_get h]
    exact ⟨_, rfl⟩
  rw [hnd]
  simp

theorem nextAt_setNext_ne {s : LState α} {i j : Nat} (nn : Option Nat)
    (h : i ≠ j) : nextAt (setNext s i nn) j = nextAt s j := by
  simp [nextAt, getNode_setNext_ne nn h]

theorem getNode_append {s : LState α} {ext : List (Node α)} {j : Nat}
    (h : j < s.mem.length) :
    getNode { s with mem := s.mem ++ ext } j = getNode s j := by
  unfold getNode
  exact List.get?_append h

theorem getNode_append_self (s : LState α) (nd : Node α) :
    getNode { s with mem := s.mem ++ [nd] } s.mem.length = some nd := by
  simp [getNode]

/-- Re-point the `next` field of the last node of a walked segment:
the walk survives with the new final pointer as long as values are
unchanged everywhere and only the last node's `next` changed. -/
theorem walks_retarget {s s' : LState α} :
    ∀ (l : List (Nat × α)) (j : Nat) (y : α) (p : Option Nat) (r : Option Nat),
    walks s p (l ++ [(j, y)]) r →
    (∀ i ∈ (l ++ [(j, y)]).map Prod.fst, valAt s' i = valAt s i) →
    (∀ i ∈ l.map Prod.fst, nextAt s' i = nextAt s i) →
    walks s' p (l ++ [(j, y)]) (nextAt s' j) := by
  intro l
  induction l with
  | nil =>
    intro j y p r hw hval _
    obtain ⟨hp, hv, -⟩ := hw
    exact ⟨hp, by rw [hval j (by simp)]; exact hv, rfl⟩
  | cons hd tl ih =>
    intro j y p r hw hval hnext
    obtain ⟨i, x⟩ := hd
    obtain ⟨hp, hv, hrest⟩ := hw
    refine ⟨hp, by rw [hval i (by simp)]; exact hv, ?_⟩
    rw [hnext i (by simp)]
    exact ih j y (nextAt s i) r hrest
      (fun k hk => hval k (by simp at hk ⊢; tauto))
      (fun k hk => hnext k (by simp at hk ⊢; tauto))

/-! ## Representation predicate -/

/-- `Rep s data hv tv`: the state is a well-formed sentinel-bracketed
chain whose data nodes are `data` (chain order, id and value), with
head sentinel value `hv` and tail sentinel value `tv`.  The walk ends
in `tail.next = nullptr`. -/
def ChainRep (s : LState α) (data : List (Nat × α)) (hv tv : α) : Prop :=
  walks s (some s.head) ((s.head, hv) :: data ++ [(s.tail, tv)]) none

/-! ## Search characterization -/

/-- The `pred` returned by the search: the last node skipped over, or
the starting predecessor if none was skipped. -/
def predOut (pred : Nat) (skipped : List (Nat × α)) : Nat :=
  (skipped.map Prod.fst).getLastD pred

/-- The `curr` returned by the search: the first unskipped node, or the
tail sentinel if every data node was skipped. -/
def currOut (s : LState α) (remaining : List (Nat × α)) : Nat :=
  match remaining with
  | [] => s.tail
  | (j, _) :: _ => j

theorem predOut_cons {i : Nat} {x : α} {l : List (Nat × α)} (pred : Nat) :
    predOut pred ((i, x) :: l) = predOut i l := by
  simp only [predOut, List.map_cons, List.getLastD_cons]

theorem findLoop_spec (lt : α → α → Bool) (s : LState α) (v : α) (tv : α) :
    ∀ (rest : List (Nat × α)) (fuel pred curr : Nat),
    walks s (some curr) (rest ++ [(s.tail, tv)]) none →
    s.tail ∉ rest.map Prod.fst →
    rest.length < fuel →
    findLoop lt s v fuel pred curr =
      some (predOut pred (rest.takeWhile (fun q => lt q.2 v)),
            currOut s (rest.dropWhile (fun q => lt q.2 v))) := by
  intro rest
  induction rest with
  | nil =>
    intro fuel pred curr hw _ hfuel
    obtain ⟨fuel', rfl⟩ : ∃ f, fuel = f + 1 := ⟨fuel - 1, by omega⟩
    obtain ⟨hc, -, -⟩ := hw
    have hcur : curr = s.tail := Option.some.inj hc
    simp [findLoop, hcur, predOut, currOut]
  | cons hd tl ih =>
    intro fuel pred curr hw hnt hfuel
    obtain ⟨i, x⟩ := hd
    obtain ⟨fuel', rfl⟩ : ∃ f, fuel = f + 1 := ⟨fuel - 1, by omega⟩
    obtain ⟨hc, hv, hrest⟩ := hw
    have hcur : curr = i := Option.some.inj hc
    subst hcur
    have hne : curr ≠ s.tail := by
      intro h
      exact hnt (by simp [← h])
    have hnt' : s.tail ∉ tl.map Prod.fst := fun h => hnt (by simp [h])
    rw [findLoop]
    rw [if_neg hne, hv]
    dsimp only
    by_cases hlt : lt x v
    · rw [if_pos hlt]
      obtain ⟨c2, hc2, hw2⟩ : ∃ c2, nextAt s curr = some c2 ∧
          walks s (some c2) (tl ++ [(s.tail, tv)]) none := by
        obtain ⟨j, y, rest2, heq⟩ : ∃ j y rest2,
            tl ++ [(s.tail, tv)] = (j, y) :: rest2 := by
          cases tl with
          | nil => exact ⟨s.tail, tv, [], rfl⟩
          | cons hd2 tl2 => exact ⟨hd2.1, hd2.2, tl2 ++ [(s.tail, tv)], by simp⟩
        have hrestC : walks s (nextAt s curr) ((j, y) :: rest2) none := by
          rw [← heq]
          exact hrest
        obtain ⟨hp, hv2, hrest2⟩ := hrestC
        exact ⟨j, hp, by rw [heq]; exact ⟨rfl, hv2, hrest2⟩⟩
      rw [hc2]
      dsimp only
      have := ih fuel' curr c2 hw2 hnt' (by simp at hfuel; omega)
      rw [this]
      have htake : ((curr, x) :: tl).takeWhile (fun q => lt q.2 v) =
          (curr, x) :: tl.takeWhile (fun q => lt q.2 v) := by
        simp [List.takeWhile_cons, hlt]
      have hdrop : ((curr, x) :: tl).dropWhile (fun q => lt q.2 v) =
          tl.dropWhile (fun q => lt q.2 v) := by
        simp [List.dropWhile_cons, hlt]
      rw [htake, hdrop]
      rw [predOut_cons]
    · rw [if_neg hlt]
      have htake : ((curr, x) :: tl).takeWhile (fun q => lt q.2 v) = [] := by
        simp [List.takeWhile_cons, hlt]
      have hdrop : ((curr, x) :: tl).dropWhile (fun q => lt q.2 v) =
          (curr, x) :: tl := by
        simp [List.dropWhile_cons, hlt]
      rw [htake, hdrop]
      simp [predOut, currOut]

/-! ## Facts derived from the representation predicate -/

theorem ChainRep.ids_nodup {s : LState α} {data : List (Nat × α)} {hv tv : α}
    (h : ChainRep s data hv tv) :
    (s.head :: data.map Prod.fst ++ [s.tail]).Nodup := by
  have := walks_nodup h
  simpa using this

theorem ChainRep.tail_not_data {s : LState α} {data : List (Nat × α)} {hv tv : α}
    (h : ChainRep s data hv tv) : s.tail ∉ data.map Prod.fst := by
  have hnd := h.ids_nodup
  have h2 : (data.map Prod.fst ++ [s.tail]).Nodup := (List.nodup_cons.mp hnd).2
  have hdisj := (List.nodup_append.mp h2).2.2
  intro hmem
  exact hdisj hmem (by simp)

theorem ChainRep.head_not_data {s : LState α} {data : List (Nat × α)} {hv tv : α}
    (h : ChainRep s data hv tv) : s.head ∉ data.map Prod.fst := by
  have hnd := h.ids_nodup
  have h1 := (List.nodup_cons.mp hnd).1
  intro hmem
  exact h1 (List.mem_append_left _ hmem)

theorem ChainRep.head_ne_tail {s : LState α} {data : List (Nat × α)} {hv tv : α}
    (h : ChainRep s data hv tv) : s.head ≠ s.tail := by
  have hnd := h.ids_nodup
  have h1 := (List.nodup_cons.mp hnd).1
  intro heq
  exact h1 (List.mem_append_right _ (by simp [heq]))

theorem ChainRep.ids_bound {s : LState α} {data : List (Nat × α)} {hv tv : α}
    (h : ChainRep s data hv tv) :
    ∀ i ∈ s.head :: data.map Prod.fst ++ [s.tail], i < s.mem.length := by
  have := walks_bound h
  intro i hi
  apply this
  simpa using hi

theorem ChainRep.data_short {s : LState α} {data : List (Nat × α)} {hv tv : α}
    (h : ChainRep s data hv tv) : data.length + 2 ≤ s.mem.length := by
  have hlen := nodup_bound_length h.ids_nodup h.ids_bound
  simpa using hlen

theorem ChainRep.head_val {s : LState α} {data : List (Nat × α)} {hv tv : α}
    (h : ChainRep s data hv tv) : valAt s s.head = some hv := h.2.1

/-- The search on a well-formed chain always succeeds and lands on the
`takeWhile` / `dropWhile` split of the data segment. -/
theorem findHoh_spec {s : LState α} {data : List (Nat × α)} {hv tv : α}
    (h : ChainRep s data hv tv) (lt : α → α → Bool) (v : α) :
    findHoh lt s v = some (predOut s.head (data.takeWhile fun q => lt q.2 v),
                           currOut s (data.dropWhile fun q => lt q.2 v)) := by
  obtain ⟨-, hhv, hrest⟩ := h
  obtain ⟨c0, hc0, hw0⟩ : ∃ c0, nextAt s s.head = some c0 ∧
      walks s (some c0) (data ++ [(s.tail, tv)]) none := by
    obtain ⟨j, y, rest2, heq⟩ : ∃ j y rest2,
        data ++ [(s.tail, tv)] = (j, y) :: rest2 := by
      cases data with
      | nil => exact ⟨s.tail, tv, [], rfl⟩
      | cons hd2 tl2 => exact ⟨hd2.1, hd2.2, tl2 ++ [(s.tail, tv)], by simp⟩
    have hrestC : walks s (nextAt s s.head) ((j, y) :: rest2) none := by
      rw [← heq]
      exact hrest
    obtain ⟨hp, hv2, hrest2⟩ := hrestC
    exact ⟨j, hp, by rw [heq]; exact ⟨rfl, hv2, hrest2⟩⟩
  unfold findHoh
  rw [hc0]
  exact findLoop_spec lt s v tv data (s.mem.length + 1) s.head c0 hw0
    (ChainRep.tail_not_data ⟨rfl, hhv, hrest⟩)
    (by have := ChainRep.data_short ⟨rfl, hhv, hrest⟩; omega)

theorem walks_start {s : LState α} {p q : Option Nat} {hd : Nat × α}
    {tl : List (Nat × α)} (h : walks s p (hd :: tl) q) : p = some hd.1 := by
  obtain ⟨i, x⟩ := hd
  exact h.1

theorem getLastD_mem_cons : ∀ (l : List β) (d : β), l.getLastD d ∈ d :: l := by
  intro l
  induction l with
  | nil => intro d; simp
  | cons a tl ih =>
    intro d
    rw [List.getLastD_cons]
    have := ih a
    simp at this ⊢
    tauto

theorem cons_eq_append_getLast (a : Nat × α) (l : List (Nat × α)) :
    ∃ l0 last, a :: l = l0 ++ [last] ∧ Prod.fst last = predOut a.1 l := by
  induction l generalizing a with
  | nil => exact ⟨[], a, rfl, rfl⟩
  | cons b tl ih =>
    obtain ⟨l0, last, heq, hlast⟩ := ih b
    refine ⟨a :: l0, last, ?_, ?_⟩
    · rw [List.cons_append, ← heq]
    · rw [hlast]
      obtain ⟨i, x⟩ := b
      rw [predOut_cons]

theorem getNode_ext {s s' : LState α} {i : Nat}
    (hval : valAt s' i = valAt s i) (hnext : nextAt s' i = nextAt s i) :
    getNode s' i = getNode s i := by
  have hv1 : (getNode s' i).map Node.val = (getNode s i).map Node.val := hval
  have hn1 : (getNode s' i).bind Node.next = (getNode s i).bind Node.next := hnext
  cases h1 : getNode s i with
  | none =>
    rw [h1] at hv1
    cases h2 : getNode s' i with
    | none => rfl
    | some nd => rw [h2] at hv1; simp at hv1
  | some nd =>
    cases h2 : getNode s' i with
    | none =>
      rw [h1, h2] at hv1
      simp at hv1
    | some nd' =>
      rw [h1, h2] at hv1 hn1
      simp at hv1 hn1
      have : nd' = nd := by
        cases nd
        cases nd'
        simp_all
      rw [this]

/-- Splicing a fresh node between the search's `pred` and `curr`
preserves the chain representation, inserting the new pair at the
split point. -/
theorem chainRep_insert {s s' : LState α} {data P S : List (Nat × α)}
    {hv tv v : α} {newId : Nat}
    (h : ChainRep s data hv tv)
    (hsplit : data = P ++ S)
    (hhead : s'.head = s.head) (htail : s'.tail = s.tail)
    (hsame : ∀ i ∈ s.head :: data.map Prod.fst ++ [s.tail],
       i ≠ predOut s.head P → getNode s' i = getNode s i)
    (hvalpo : valAt s' (predOut s.head P) = valAt s (predOut s.head P))
    (hponext : nextAt s' (predOut s.head P) = some newId)
    (hnew : getNode s' newId = some ⟨v, some (currOut s S)⟩) :
    ChainRep s' (P ++ (newId, v) :: S) hv tv := by
  have hNodup := h.ids_nodup
  obtain ⟨-, hhv, hrest⟩ := h
  have hrep : ChainRep s data hv tv := ⟨rfl, hhv, hrest⟩
  -- reshape the full chain as prefix ++ suffix
  have hF : walks s (some s.head)
      (((s.head, hv) :: P) ++ (S ++ [(s.tail, tv)])) none := by
    have : (s.head, hv) :: data ++ [(s.tail, tv)] =
        ((s.head, hv) :: P) ++ (S ++ [(s.tail, tv)]) := by
      rw [hsplit]; simp
    rw [← this]
    exact hrep
  rw [walks_append] at hF
  obtain ⟨r, hpre, hsuf⟩ := hF
  have hr : r = some (currOut s S) := by
    cases S with
    | nil => exact walks_start hsuf
    | cons hd2 tl2 =>
      have := walks_start (by simpa using hsuf :
        walks s r (hd2 :: (tl2 ++ [(s.tail, tv)])) none)
      simpa [currOut] using this
  -- nodup bookkeeping
  have hshape : s.head :: data.map Prod.fst ++ [s.tail] =
      (s.head :: P.map Prod.fst) ++ (S.map Prod.fst ++ [s.tail]) := by
    rw [hsplit]; simp
  have hNodup2 : ((s.head :: P.map Prod.fst) ++
      (S.map Prod.fst ++ [s.tail])).Nodup := hshape ▸ hNodup
  obtain ⟨hnd1, hnd2, hdisj⟩ := List.nodup_append.mp hNodup2
  have hpoMem : predOut s.head P ∈ s.head :: P.map Prod.fst := by
    have := getLastD_mem_cons (P.map Prod.fst) s.head
    simpa [predOut] using this
  have hpoNotSuf : ∀ i ∈ S.map Prod.fst ++ [s.tail], i ≠ predOut s.head P := by
    intro i hi heq
    exact hdisj hpoMem (heq ▸ hi)
  have hmemFull : ∀ i, i ∈ s.head :: P.map Prod.fst ∨
      i ∈ S.map Prod.fst ++ [s.tail] →
      i ∈ s.head :: data.map Prod.fst ++ [s.tail] := by
    intro i hi
    rw [hshape]
    rcases hi with hi | hi
    · exact List.mem_append_left _ hi
    · exact List.mem_append_right _ hi
  -- prefix: retarget the last node's next pointer at the new node
  obtain ⟨l0, last, hconsEq, hlast⟩ := cons_eq_append_getLast (s.head, hv) P
  obtain ⟨j, y⟩ := last
  simp only at hlast
  have hpreA : walks s (some s.head) (l0 ++ [(j, y)]) r := by
    rw [← hconsEq]; exact hpre
  have hidsEq : (l0 ++ [(j, y)]).map Prod.fst = s.head :: P.map Prod.fst := by
    rw [← hconsEq]; simp
  have hl0NoPo : ∀ i ∈ l0.map Prod.fst, i ≠ predOut s.head P := by
    have hndl : ((l0 ++ [(j, y)]).map Prod.fst).Nodup := hidsEq ▸ hnd1
    simp only [List.map_append, List.map_cons, List.map_nil] at hndl
    obtain ⟨-, -, hdj⟩ := List.nodup_append.mp hndl
    intro i hi heq
    exact hdj hi (by simp [heq, ← hlast])
  have hpre' : walks s' (some s.head) (l0 ++ [(j, y)]) (nextAt s' j) := by
    apply walks_retarget l0 j y _ r hpreA
    · intro i hi
      rw [hidsEq] at hi
      by_cases hipo : i = predOut s.head P
      · rw [hipo]; exact hvalpo
      · have := hsame i (hmemFull i (Or.inl hi)) hipo
        simp [valAt, this]
    · intro i hi
      have hine := hl0NoPo i hi
      have himem : i ∈ s.head :: P.map Prod.fst := by
        have : i ∈ (l0 ++ [(j, y)]).map Prod.fst := by
          simp only [List.map_append]
          exact List.mem_append_left _ hi
        rwa [hidsEq] at this
      have := hsame i (hmemFull i (Or.inl himem)) hine
      simp [nextAt, this]
  have hjnext : nextAt s' j = some newId := by rw [hlast]; exact hponext
  rw [hjnext] at hpre'
  -- suffix: unchanged
  have hsuf' : walks s' (some (currOut s S)) (S ++ [(s.tail, tv)]) none := by
    apply walks_congr _ (hr ▸ hsuf)
    intro i hi
    have hi' : i ∈ S.map Prod.fst ++ [s.tail] := by simpa using hi
    exact hsame i (hmemFull i (Or.inr hi')) (hpoNotSuf i hi')
  -- new node
  have hmid : walks s' (some newId) ((newId, v) :: (S ++ [(s.tail, tv)])) none := by
    refine ⟨rfl, ?_, ?_⟩
    · simp [valAt, hnew]
    · have : nextAt s' newId = some (currOut s S) := by simp [nextAt, hnew]
      rw [this]
      exact hsuf'
  -- assemble
  show walks s' (some s'.head)
    ((s'.head, hv) :: (P ++ (newId, v) :: S) ++ [(s'.tail, tv)]) none
  rw [hhead, htail]
  have hgoalEq : (s.head, hv) :: (P ++ (newId, v) :: S) ++ [(s.tail, tv)] =
      ((s.head, hv) :: P) ++ ((newId, v) :: (S ++ [(s.tail, tv)])) := by
    simp
  rw [hgoalEq]
  rw [walks_append]
  refine ⟨some newId, ?_, hmid⟩
  rw [hconsEq]
  exact hpre'

/-- On a well-formed chain, the node after the one carrying the head of
the second split component points at the rest of the split. -/
theorem chainRep_next_of_split {s : LState α} {data P S' : List (Nat × α)}
    {hv tv w : α} {c : Nat}
    (h : ChainRep s data hv tv) (hsplit : data = P ++ (c, w) :: S') :
    nextAt s c = some (currOut s S') := by
  obtain ⟨-, hhv, hrest⟩ := h
  have hrep : ChainRep s data hv tv := ⟨rfl, hhv, hrest⟩
  have hF : walks s (some s.head)
      (((s.head, hv) :: P) ++ ((c, w) :: (S' ++ [(s.tail, tv)]))) none := by
    have : (s.head, hv) :: data ++ [(s.tail, tv)] =
        ((s.head, hv) :: P) ++ ((c, w) :: (S' ++ [(s.tail, tv)])) := by
      rw [hsplit]; simp
    rw [← this]
    exact hrep
  rw [walks_append] at hF
  obtain ⟨r, hpre, hsuf⟩ := hF
  obtain ⟨-, -, hrest2⟩ := hsuf
  cases hS : S' with
  | nil =>
    rw [hS] at hrest2
    exact hrest2.1
  | cons hd2 tl2 =>
    rw [hS] at hrest2
    have := walks_start (by simpa using hrest2 :
      walks s (nextAt s c) (hd2 :: (tl2 ++ [(s.tail, tv)])) none)
    simpa [currOut] using this

/-- Unlinking the node at the head of the second split component
preserves the chain representation, dropping that pair. -/
theorem chainRep_remove {s s' : LState α} {data P S' : List (Nat × α)}
    {hv tv w : α} {c : Nat}
    (h : ChainRep s data hv tv)
    (hsplit : data = P ++ (c, w) :: S')
    (hhead : s'.head = s.head) (htail : s'.tail = s.tail)
    (hsame : ∀ i ∈ s.head :: data.map Prod.fst ++ [s.tail],
       i ≠ predOut s.head P → getNode s' i = getNode s i)
    (hvalpo : valAt s' (predOut s.head P) = valAt s (predOut s.head P))
    (hponext : nextAt s' (predOut s.head P) = some (currOut s S')) :
    ChainRep s' (P ++ S') hv tv := by
  have hNodup := h.ids_nodup
  obtain ⟨-, hhv, hrest⟩ := h
  have hrep : ChainRep s data hv tv := ⟨rfl, hhv, hrest⟩
  have hF : walks s (some s.head)
      (((s.head, hv) :: P) ++ ((c, w) :: (S' ++ [(s.tail, tv)]))) none := by
    have : (s.head, hv) :: data ++ [(s.tail, tv)] =
        ((s.head, hv) :: P) ++ ((c, w) :: (S' ++ [(s.tail, tv)])) := by
      rw [hsplit]; simp
    rw [← this]
    exact hrep
  rw [walks_append] at hF
  obtain ⟨r, hpre, hsuf⟩ := hF
  obtain ⟨hrc, -, hrest2⟩ := hsuf
  -- nodup bookkeeping
  have hshape : s.head :: data.map Prod.fst ++ [s.tail] =
      (s.head :: P.map Prod.fst) ++ (c :: S'.map Prod.fst ++ [s.tail]) := by
    rw [hsplit]; simp
  have hNodup2 : ((s.head :: P.map Prod.fst) ++
      (c :: S'.map Prod.fst ++ [s.tail])).Nodup := hshape ▸ hNodup
  obtain ⟨hnd1, hnd2, hdisj⟩ := List.nodup_append.mp hNodup2
  have hpoMem : predOut s.head P ∈ s.head :: P.map Prod.fst := by
    have := getLastD_mem_cons (P.map Prod.fst) s.head
    simpa [predOut] using this
  have hmemFull : ∀ i, i ∈ s.head :: P.map Prod.fst ∨
      i ∈ c :: S'.map Prod.fst ++ [s.tail] →
      i ∈ s.head :: data.map Prod.fst ++ [s.tail] := by
    intro i hi
    rw [hshape]
    rcases hi with hi | hi
    · exact List.mem_append_left _ hi
    · exact List.mem_append_right _ hi
  -- prefix: retarget
  obtain ⟨l0, last, hconsEq, hlast⟩ := cons_eq_append_getLast (s.head, hv) P
  obtain ⟨j, y⟩ := last
  simp only at hlast
  have hpreA : walks s (some s.head) (l0 ++ [(j, y)]) r := by
    rw [← hconsEq]; exact hpre
  have hidsEq : (l0 ++ [(j, y)]).map Prod.fst = s.head :: P.map Prod.fst := by
    rw [← hconsEq]; simp
  have hl0NoPo : ∀ i ∈ l0.map Prod.fst, i ≠ predOut s.head P := by
    have hndl : ((l0 ++ [(j, y)]).map Prod.fst).Nodup := hidsEq ▸ hnd1
    simp only [List.map_append, List.map_cons, List.map_nil] at hndl
    obtain ⟨-, -, hdj⟩ := List.nodup_append.mp hndl
    intro i hi heq
    exact hdj hi (by simp [heq, ← hlast])
  have hpre' : walks s' (some s.head) (l0 ++ [(j, y)]) (nextAt s' j) := by
    apply walks_retarget l0 j y _ r hpreA
    · intro i hi
      rw [hidsEq] at hi
      by_cases hipo : i = predOut s.head P
      · rw [hipo]; exact hvalpo
      · have := hsame i (hmemFull i (Or.inl hi)) hipo
        simp [valAt, this]
    · intro i hi
      have hine := hl0NoPo i hi
      have himem : i ∈ s.head :: P.map Prod.fst := by
        have : i ∈ (l0 ++ [(j, y)]).map Prod.fst := by
          simp only [List.map_append]
          exact List.mem_append_left _ hi
        rwa [hidsEq] at this
      have := hsame i (hmemFull i (Or.inl himem)) hine
      simp [nextAt, this]
  have hjnext : nextAt s' j = some (currOut s S') := by
    rw [hlast]; exact hponext
  rw [hjnext] at hpre'
  -- suffix: unchanged, starting at the node after the removed one
  have hcnext : nextAt s c = some (currOut s S') :=
    chainRep_next_of_split hrep hsplit
  have hsufOld : walks s (some (currOut s S')) (S' ++ [(s.tail, tv)]) none := by
    rw [← hcnext]
    exact hrest2
  have hsuf' : walks s' (some (currOut s S')) (S' ++ [(s.tail, tv)]) none := by
    apply walks_congr _ hsufOld
    intro i hi
    have hi' : i ∈ c :: S'.map Prod.fst ++ [s.tail] := by
      simp at hi ⊢
      tauto
    refine hsame i (hmemFull i (Or.inr hi')) ?_
    intro heq
    exact hdisj hpoMem (heq ▸ hi')
  -- assemble
  show walks s' (some s'.head)
    ((s'.head, hv) :: (P ++ S') ++ [(s'.tail, tv)]) none
  rw [hhead, htail]
  have hgoalEq : (s.head, hv) :: (P ++ S') ++ [(s.tail, tv)] =
      ((s.head, hv) :: P) ++ (S' ++ [(s.tail, tv)]) := by
    simp
  rw [hgoalEq]
  rw [walks_append]
  refine ⟨some (currOut s S'), ?_, hsuf'⟩
  rw [hconsEq]
  exact hpre'


theorem walks_val_of_mem {s : LState α} {p q : Option Nat} :
    ∀ {l : List (Nat × α)}, walks s p l q → ∀ a ∈ l, valAt s a.1 = some a.2 := by
  intro l
  induction l generalizing p with
  | nil => intro _ a ha; simp at ha
  | cons hd tl ih =>
    intro hw a ha
    obtain ⟨i, x⟩ := hd
    obtain ⟨-, hval, hrest⟩ := hw
    rcases List.mem_cons.mp ha with ha | ha
    · rw [ha]; exact hval
    · exact ih hrest a ha

theorem ChainRep.val_of_mem {s : LState α} {data : List (Nat × α)} {hv tv : α}
    (h : ChainRep s data hv tv) : ∀ q ∈ data, valAt s q.1 = some q.2 := by
  intro q hq
  exact walks_val_of_mem h q (by simp [hq])

theorem mem_of_dropWhile_mem {l : List β} {p : β → Bool} {a : β}
    (h : a ∈ l.dropWhile p) : a ∈ l := by
  have hconcat := List.takeWhile_append_dropWhile p l
  rw [← hconcat]
  exact List.mem_append_right _ h

theorem mem_of_takeWhile_mem {l : List β} {p : β → Bool} {a : β}
    (h : a ∈ l.takeWhile p) : a ∈ l := by
  have hconcat := List.takeWhile_append_dropWhile p l
  rw [← hconcat]
  exact List.mem_append_left _ h

theorem dropWhile_head_false (p : β → Bool) :
    ∀ {l : List β} {a : β} {rest : List β},
    l.dropWhile p = a :: rest → p a = false := by
  intro l
  induction l with
  | nil =>
    intro a rest h
    simp [List.dropWhile] at h
  | cons b tl ih =>
    intro a rest h
    rw [List.dropWhile_cons] at h
    by_cases hb : p b = true
    · rw [if_pos hb] at h
      exact ih h
    · rw [if_neg hb] at h
      injection h with h1 h2
      subst h1
      simpa using hb

theorem predOut_mem_full {s : LState α} {data P S : List (Nat × α)}
    (hsplit : data = P ++ S) :
    predOut s.head P ∈ s.head :: data.map Prod.fst ++ [s.tail] := by
  have hmem := getLastD_mem_cons (P.map Prod.fst) s.head
  rcases List.mem_cons.mp hmem with hh | hh
  · have heq : predOut s.head P = s.head := hh
    rw [heq]
    simp
  · have hmemP : predOut s.head P ∈ data.map Prod.fst := by
      rw [hsplit]
      simp only [List.map_append]
      exact List.mem_append_left _ hh
    simp [hmemP]

/-- `add` on a chain already holding `v`: the duplicate is detected and
nothing changes. -/
theorem fineAdd_dup {s : LState Int} {data : List (Nat × Int)} {hv tv v : Int}
    {c : Nat} {S' : List (Nat × Int)}
    (h : ChainRep s data hv tv)
    (hS : data.dropWhile (fun q => intLt q.2 v) = (c, v) :: S') :
    fineAdd s v = (Except.ok false, s) := by
  have hfind := findHoh_spec h intLt v
  have hco : currOut s (data.dropWhile fun q => intLt q.2 v) = c := by
    rw [hS]; rfl
  have hcmem : (c, v) ∈ data :=
    mem_of_dropWhile_mem (by rw [hS]; simp)
  have hcne : c ≠ s.tail := by
    intro heq
    exact h.tail_not_data (heq ▸ List.mem_map_of_mem Prod.fst hcmem)
  have hcval : valAt s c = some v := h.val_of_mem (c, v) hcmem
  unfold fineAdd fineAddA find_and_lock_hoh
  rw [hfind, hco]
  dsimp only
  rw [if_pos ⟨hcne, hcval⟩]

/-- `add` of an absent value: the fresh node is spliced in at the
sorted position and the size counter is incremented. -/
theorem fineAdd_ins {s : LState Int} {data : List (Nat × Int)} {hv tv v : Int}
    (h : ChainRep s data hv tv)
    (hS : ∀ q ∈ (data.dropWhile (fun q => intLt q.2 v)).head?, q.2 ≠ v) :
    ∃ s', fineAdd s v = (Except.ok true, s') ∧
      ChainRep s' (data.takeWhile (fun q => intLt q.2 v) ++
        (s.mem.length, v) :: data.dropWhile (fun q => intLt q.2 v)) hv tv ∧
      s'.sz = s.sz + 1 ∧ s'.head = s.head ∧ s'.tail = s.tail ∧
      s'.mem.length = s.mem.length + 1 := by
  have hfind := findHoh_spec h intLt v
  set P := data.takeWhile (fun q => intLt q.2 v) with hP
  set S := data.dropWhile (fun q => intLt q.2 v) with hSdef
  set po := predOut s.head P with hpo
  set co := currOut s S with hco
  have hsplit : data = P ++ S := (List.takeWhile_append_dropWhile ..).symm
  have hbound := h.ids_bound
  have hpoMem : po ∈ s.head :: data.map Prod.fst ++ [s.tail] :=
    predOut_mem_full hsplit
  have hpolt : po < s.mem.length := hbound po hpoMem
  have hcond : ¬(co ≠ s.tail ∧ valAt s co = some v) := by
    cases hScase : S with
    | nil =>
      rintro ⟨hne, -⟩
      exact hne (by rw [hco, hScase]; rfl)
    | cons hd2 S' =>
      obtain ⟨c, y⟩ := hd2
      rintro ⟨-, hval⟩
      have hmemS : (c, y) ∈ data.dropWhile (fun q => intLt q.2 v) := by
        rw [← hSdef, hScase]
        simp
      have hcm : (c, y) ∈ data := mem_of_dropWhile_mem hmemS
      have hcv : valAt s c = some y := h.val_of_mem (c, y) hcm
      have hcoc : co = c := by rw [hco, hScase]; rfl
      rw [hcoc, hcv] at hval
      exact hS (c, y) (by rw [hScase]; rfl) (Option.some.inj hval)
  set newId := s.mem.length with hnewId
  set s1 : LState Int := { s with mem := s.mem ++ [⟨v, some co⟩] } with hs1
  set s2 := setNext s1 po (some newId) with hs2
  refine ⟨{ s2 with sz := s2.sz + 1 }, ?_, ?_, ?_, ?_, ?_, ?_⟩
  · unfold fineAdd fineAddA find_and_lock_hoh
    rw [hfind]
    dsimp only
    rw [if_neg hcond]
    rfl
  · apply chainRep_insert h hsplit
    · simp [hs2, hs1]
    · simp [hs2, hs1]
    · intro i hi hine
      have hilt : i < s.mem.length := hbound i hi
      have g1 : getNode ({ s2 with sz := s2.sz + 1 } : LState Int) i = getNode s2 i := rfl
      rw [g1, hs2, getNode_setNext_ne _ (fun heq => hine heq.symm)]
      exact getNode_append hilt
    · have g1 : valAt ({ s2 with sz := s2.sz + 1 } : LState Int) po = valAt s2 po := rfl
      rw [g1, hs2, valAt_setNext]
      show valAt s1 po = valAt s po
      unfold valAt
      rw [hs1, getNode_append hpolt]
    · have g1 : nextAt ({ s2 with sz := s2.sz + 1 } : LState Int) po = nextAt s2 po := rfl
      rw [g1, hs2]
      apply nextAt_setNext_self
      rw [hs1]
      simp
      omega
    · have g1 : getNode ({ s2 with sz := s2.sz + 1 } : LState Int) newId =
          getNode s2 newId := rfl
      have hpone : po ≠ newId := by omega
      rw [g1, hs2, getNode_setNext_ne _ hpone, hs1, hnewId]
      exact getNode_append_self s ⟨v, some co⟩
  · simp [hs2, hs1]
  · simp [hs2, hs1]
  · simp [hs2, hs1]
  · rw [hs2]
    simp only [setNext_mem_length]
    simp [hnewId]

/-- `remove` of a present value: the node is unlinked and the counter
decremented. -/
theorem fineRemove_hit {s : LState Int} {data : List (Nat × Int)} {hv tv v : Int}
    {c : Nat} {S' : List (Nat × Int)}
    (h : ChainRep s data hv tv)
    (hS : data.dropWhile (fun q => intLt q.2 v) = (c, v) :: S') :
    ∃ s', fineRemove s v = (Except.ok true, s') ∧
      ChainRep s' (data.takeWhile (fun q => intLt q.2 v) ++ S') hv tv ∧
      s'.sz = s.sz - 1 ∧ s'.head = s.head ∧ s'.tail = s.tail ∧
      s'.mem.length = s.mem.length := by
  have hfind := findHoh_spec h intLt v
  set P := data.takeWhile (fun q => intLt q.2 v) with hP
  set po := predOut s.head P with hpo
  have hsplit : data = P ++ (c, v) :: S' := by
    conv_lhs => rw [← List.takeWhile_append_dropWhile (fun q => intLt q.2 v) data]
    rw [hS]
  have hbound := h.ids_bound
  have hpoMem : po ∈ s.head :: data.map Prod.fst ++ [s.tail] :=
    predOut_mem_full hsplit
  have hpolt : po < s.mem.length := hbound po hpoMem
  have hco : currOut s (data.dropWhile fun q => intLt q.2 v) = c := by
    rw [hS]; rfl
  have hcmem : (c, v) ∈ data := mem_of_dropWhile_mem (by rw [hS]; simp)
  have hcne : c ≠ s.tail := by
    intro heq
    exact h.tail_not_data (heq ▸ List.mem_map_of_mem Prod.fst hcmem)
  have hcval : valAt s c = some v := h.val_of_mem (c, v) hcmem
  have hcnext : nextAt s c = some (currOut s S') :=
    chainRep_next_of_split h hsplit
  set s1 := setNext s po (nextAt s c) with hs1
  refine ⟨{ s1 with sz := s1.sz - 1 }, ?_, ?_, ?_, ?_, ?_, ?_⟩
  · unfold fineRemove find_and_lock_hoh
    rw [hfind, hco]
    dsimp only
    rw [if_pos ⟨hcne, hcval⟩]
  · apply chainRep_remove h hsplit
    · simp [hs1]
    · simp [hs1]
    · intro i hi hine
      have g1 : getNode ({ s1 with sz := s1.sz - 1 } : LState Int) i = getNode s1 i := rfl
      rw [g1, hs1]
      exact getNode_setNext_ne _ (fun heq => hine heq.symm)
    · have g1 : valAt ({ s1 with sz := s1.sz - 1 } : LState Int) po = valAt s1 po := rfl
      rw [g1, hs1, valAt_setNext]
    · have g1 : nextAt ({ s1 with sz := s1.sz - 1 } : LState Int) po = nextAt s1 po := rfl
      rw [g1, hs1, nextAt_setNext_self _ hpolt]
      exact hcnext
  · simp [hs1]
  · simp [hs1]
  · simp [hs1]
  · simp [hs1]

/-- `remove` of an absent value: no change. -/
theorem fineRemove_miss {s : LState Int} {data : List (Nat × Int)} {hv tv v : Int}
    (h : ChainRep s data hv tv)
    (hS : ∀ q ∈ (data.dropWhile (fun q => intLt q.2 v)).head?, q.2 ≠ v) :
    fineRemove s v = (Except.ok false, s) := by
  have hfind := findHoh_spec h intLt v
  set S := data.dropWhile (fun q => intLt q.2 v) with hSdef
  set co := currOut s S with hco
  have hcond : ¬(co ≠ s.tail ∧ valAt s co = some v) := by
    cases hScase : S with
    | nil =>
      rintro ⟨hne, -⟩
      exact hne (by rw [hco, hScase]; rfl)
    | cons hd2 S2 =>
      obtain ⟨c, y⟩ := hd2
      rintro ⟨-, hval⟩
      have hmemS : (c, y) ∈ data.dropWhile (fun q => intLt q.2 v) := by
        rw [← hSdef, hScase]
        simp
      have hcm : (c, y) ∈ data := mem_of_dropWhile_mem hmemS
      have hcv : valAt s c = some y := h.val_of_mem (c, y) hcm
      have hcoc : co = c := by rw [hco, hScase]; rfl
      rw [hcoc, hcv] at hval
      exact hS (c, y) (by rw [hScase]; rfl) (Option.some.inj hval)
  unfold fineRemove find_and_lock_hoh
  rw [hfind]
  dsimp only
  rw [if_neg hcond]

/-- `contains` of a present value. -/
theorem fineContains_true {s : LState Int} {data : List (Nat × Int)} {hv tv v : Int}
    {c : Nat} {S' : List (Nat × Int)}
    (h : ChainRep s data hv tv)
    (hS : data.dropWhile (fun q => intLt q.2 v) = (c, v) :: S') :
    fineContains s v = (Except.ok true, s) := by
  have hfind := findHoh_spec h intLt v
  have hco : currOut s (data.dropWhile fun q => intLt q.2 v) = c := by
    rw [hS]; rfl
  have hcmem : (c, v) ∈ data := mem_of_dropWhile_mem (by rw [hS]; simp)
  have hcne : c ≠ s.tail := by
    intro heq
    exact h.tail_not_data (heq ▸ List.mem_map_of_mem Prod.fst hcmem)
  have hcval : valAt s c = some v := h.val_of_mem (c, v) hcmem
  unfold fineContains find_and_lock_hoh
  rw [hfind, hco]
  dsimp only
  rw [decide_eq_true ⟨hcne, hcval⟩]

/-- `contains` of an absent value. -/
theorem fineContains_false {s : LState Int} {data : List (Nat × Int)} {hv tv v : Int}
    (h : ChainRep s data hv tv)
    (hS : ∀ q ∈ (data.dropWhile (fun q => intLt q.2 v)).head?, q.2 ≠ v) :
    fineContains s v = (Except.ok false, s) := by
  have hfind := findHoh_spec h intLt v
  set S := data.dropWhile (fun q => intLt q.2 v) with hSdef
  set co := currOut s S with hco
  have hcond : ¬(co ≠ s.tail ∧ valAt s co = some v) := by
    cases hScase : S with
    | nil =>
      rintro ⟨hne, -⟩
      exact hne (by rw [hco, hScase]; rfl)
    | cons hd2 S2 =>
      obtain ⟨c, y⟩ := hd2
      rintro ⟨-, hval⟩
      have hmemS : (c, y) ∈ data.dropWhile (fun q => intLt q.2 v) := by
        rw [← hSdef, hScase]
        simp
      have hcm : (c, y) ∈ data := mem_of_dropWhile_mem hmemS
      have hcv : valAt s c = some y := h.val_of_mem (c, y) hcm
      have hcoc : co = c := by rw [hco, hScase]; rfl
      rw [hcoc, hcv] at hval
      exact hS (c, y) (by rw [hScase]; rfl) (Option.some.inj hval)
  unfold fineContains find_and_lock_hoh
  rw [hfind]
  dsimp only
  rw [decide_eq_false hcond]

/-- `contains` never mutates the state, even on errors. -/
theorem fineContains_state (s : LState Int) (v : Int) :
    (fineContains s v).2 = s := by
  unfold fineContains
  cases find_and_lock_hoh s v with
  | none => rfl
  | some pc => obtain ⟨p, c⟩ := pc; rfl

/-! ## Set invariant -/

/-- Chain-level invariant of the set variants: well-formed sentinel
chain, strictly increasing data values (hence no duplicates), and all
data values within the `int` range. -/
def SetChainInv (s : LState Int) (data : List (Nat × Int)) : Prop :=
  ChainRep s data INTMIN INTMAX ∧
  List.Chain' (· < ·) (data.map Prod.snd) ∧
  (∀ x ∈ data.map Prod.snd, INTMIN ≤ x ∧ x ≤ INTMAX)

/-- Invariant of the fine (and coarse) set: chain invariant plus an
accurate size counter. -/
def SetInv (s : LState Int) : Prop :=
  ∃ data, SetChainInv s data ∧ s.sz = data.length

/-- Either the landing node carries exactly `v`, or no data node does
(at the landing point). -/
theorem dropWhile_cases (data : List (Nat × Int)) (v : Int) :
    (∃ c S', data.dropWhile (fun q => intLt q.2 v) = (c, v) :: S') ∨
    (∀ q ∈ (data.dropWhile (fun q => intLt q.2 v)).head?, q.2 ≠ v) := by
  cases h : data.dropWhile (fun q => intLt q.2 v) with
  | nil =>
    right
    simp
  | cons hd S' =>
    obtain ⟨c1, c2⟩ := hd
    by_cases hveq : c2 = v
    · left
      exact ⟨c1, S', by rw [hveq]⟩
    · right
      intro q hq
      simp at hq
      rw [← hq]
      exact hveq

theorem mem_vals_lt_of_takeWhile {data : List (Nat × Int)} {v x : Int}
    (hx : x ∈ (data.takeWhile (fun q => intLt q.2 v)).map Prod.snd) : x < v := by
  obtain ⟨q, hq, hqx⟩ := List.mem_map.mp hx
  have := List.mem_takeWhile_imp hq
  simp [intLt] at this
  omega

/-- Inserting `v` at the `takeWhile`/`dropWhile` split of a strictly
sorted list keeps it strictly sorted, provided the landing value is not
`v` itself. -/
theorem chain_insert_sorted {data : List (Nat × Int)} {v : Int} {newId : Nat}
    (hsorted : List.Chain' (· < ·) (data.map Prod.snd))
    (hne : ∀ q ∈ (data.dropWhile (fun q => intLt q.2 v)).head?, q.2 ≠ v) :
    List.Chain' (· < ·) ((data.takeWhile (fun q => intLt q.2 v) ++
      (newId, v) :: data.dropWhile (fun q => intLt q.2 v)).map Prod.snd) := by
  set P := data.takeWhile (fun q => intLt q.2 v) with hP
  set S := data.dropWhile (fun q => intLt q.2 v) with hS
  have hsplit : data = P ++ S := (List.takeWhile_append_dropWhile ..).symm
  have hsorted2 : List.Chain' (· < ·) (P.map Prod.snd ++ S.map Prod.snd) := by
    have : data.map Prod.snd = P.map Prod.snd ++ S.map Prod.snd := by
      rw [hsplit]; simp
    rwa [this] at hsorted
  obtain ⟨hcP, hcS, -⟩ := List.chain'_append.mp hsorted2
  have hmapEq : ((P ++ (newId, v) :: S).map Prod.snd) =
      P.map Prod.snd ++ v :: S.map Prod.snd := by simp
  rw [hmapEq]
  rw [List.chain'_append]
  refine ⟨hcP, ?_, ?_⟩
  · rw [List.chain'_cons']
    refine ⟨?_, hcS⟩
    intro y hy
    have hy' : (S.map Prod.snd).head? = some y := Option.mem_def.mp hy
    rw [List.head?_map] at hy'
    obtain ⟨q, hq, hqy⟩ := Option.map_eq_some'.mp hy'
    cases hScase : S with
    | nil => rw [hScase] at hq; simp at hq
    | cons hd S2 =>
      rw [hScase] at hq
      have hdq : hd = q := by simpa using hq
      have hdrop : data.dropWhile (fun r => intLt r.2 v) = hd :: S2 := by
        rw [← hS]
        exact hScase
      have hfalse : (fun r : Nat × Int => intLt r.2 v) hd = false :=
        dropWhile_head_false (fun r : Nat × Int => intLt r.2 v) hdrop
      have hnev : hd.2 ≠ v := hne hd (by rw [hScase]; rfl)
      simp [intLt] at hfalse
      rw [← hqy, ← hdq]
      omega
  · intro x hx y hy
    have hxP : x ∈ P.map Prod.snd := by
      cases hP2 : (P.map Prod.snd).getLast? with
      | none => rw [hP2] at hx; simp at hx
      | some a =>
        rw [hP2] at hx
        simp at hx
        have hmem2 : a ∈ (P.map Prod.snd).getLast? := hP2
        obtain ⟨hne2, hxa⟩ := List.mem_getLast?_eq_getLast hmem2
        rw [← hx, hxa]
        exact List.getLast_mem hne2
    have hxv : x < v := mem_vals_lt_of_takeWhile hxP
    simp at hy
    omega

theorem chainRep_setNew : ChainRep setNew ([] : List (Nat × Int)) INTMIN INTMAX :=
  ⟨rfl, rfl, rfl, rfl, rfl⟩

theorem setChainInv_setNew : SetChainInv setNew [] :=
  ⟨chainRep_setNew, by simp, by simp⟩

theorem length_take_drop_split (data : List (Nat × Int)) (v : Int) :
    (data.takeWhile (fun q => intLt q.2 v)).length +
    (data.dropWhile (fun q => intLt q.2 v)).length = data.length := by
  have hlen := congrArg List.length
    (List.takeWhile_append_dropWhile (fun q => intLt q.2 v) data)
  rw [List.length_append] at hlen
  exact hlen

/-- `add` preserves the fine-set invariant. -/
theorem setInv_add {s : LState Int} (h : SetInv s) (v : Int)
    (h1 : INTMIN ≤ v) (h2 : v ≤ INTMAX) : SetInv (fineAdd s v).2 := by
  obtain ⟨data, ⟨hrep, hsorted, hbnds⟩, hsz⟩ := h
  rcases dropWhile_cases data v with ⟨c, S', hS⟩ | hS
  · rw [fineAdd_dup hrep hS]
    exact ⟨data, ⟨hrep, hsorted, hbnds⟩, hsz⟩
  · obtain ⟨s', heq, hrep', hsz', -, -, -⟩ := fineAdd_ins hrep hS
    rw [heq]
    refine ⟨_, ⟨hrep', chain_insert_sorted hsorted hS, ?_⟩, ?_⟩
    · intro x hx
      simp only [List.map_append, List.map_cons] at hx
      rcases List.mem_append.mp hx with hx | hx
      · exact hbnds x (by
          rw [← List.takeWhile_append_dropWhile (fun q => intLt q.2 v) data]
          simp only [List.map_append]
          exact List.mem_append_left _ hx)
      · rcases List.mem_cons.mp hx with hx | hx
        · rw [hx]; exact ⟨h1, h2⟩
        · exact hbnds x (by
            rw [← List.takeWhile_append_dropWhile (fun q => intLt q.2 v) data]
            simp only [List.map_append]
            exact List.mem_append_right _ hx)
    · have hlen := length_take_drop_split data v
      simp only [List.length_append, List.length_cons]
      omega

/-- `remove` preserves the fine-set invariant. -/
theorem setInv_remove {s : LState Int} (h : SetInv s) (v : Int) :
    SetInv (fineRemove s v).2 := by
  obtain ⟨data, ⟨hrep, hsorted, hbnds⟩, hsz⟩ := h
  rcases dropWhile_cases data v with ⟨c, S', hS⟩ | hS
  · obtain ⟨s', heq, hrep', hsz', -, -, -⟩ := fineRemove_hit hrep hS
    rw [heq]
    set P := data.takeWhile (fun q => intLt q.2 v) with hP
    have hsubl : List.Sublist (P ++ S') (P ++ (c, v) :: S') :=
      List.Sublist.append_left (List.sublist_cons_self (c, v) S') P
    have hsubl2 : (P ++ (c, v) :: S') = data := by
      conv_rhs => rw [← List.takeWhile_append_dropWhile (fun q => intLt q.2 v) data]
      rw [hS]
    refine ⟨_, ⟨hrep', ?_, ?_⟩, ?_⟩
    · exact List.Chain'.sublist (hsubl2 ▸ hsorted : List.Chain' _ _)
        (List.Sublist.map Prod.snd (hsubl2 ▸ hsubl))
    · intro x hx
      apply hbnds
      rw [← hsubl2]
      obtain ⟨q, hq, hqx⟩ := List.mem_map.mp hx
      exact hqx ▸ List.mem_map_of_mem Prod.snd (hsubl.mem hq)
    · have hlen : data.length = P.length + S'.length + 1 := by
        rw [← hsubl2]
        simp
        omega
      simp only [List.length_append] at hsz' ⊢
      omega
  · rw [fineRemove_miss hrep hS]
    exact ⟨data, ⟨hrep, hsorted, hbnds⟩, hsz⟩

/-- Every fine-set state reachable by a sequential run satisfies the
invariant. -/
theorem setInv_reach {s : LState Int} (h : SetReach s) : SetInv s := by
  induction h with
  | init => exact ⟨[], setChainInv_setNew, rfl⟩
  | add s v h1 h2 _ ih => exact setInv_add ih v h1 h2
  | rem s v _ ih => exact setInv_remove ih v
  | con s v _ ih => rw [fineContains_state]; exact ih

theorem getNode_of_valAt {s : LState α} {i : Nat} {x : α}
    (h : valAt s i = some x) : ∃ nd, getNode s i = some nd ∧ nd.val = x := by
  unfold valAt at h
  obtain ⟨nd, hnd, hval⟩ := Option.map_eq_some'.mp h
  exact ⟨nd, hnd, hval⟩

theorem chainDataLoop_spec {s : LState α} {tv : α} :
    ∀ (rest : List (Nat × α)) (fuel curr : Nat),
    walks s (some curr) (rest ++ [(s.tail, tv)]) none →
    s.tail ∉ rest.map Prod.fst →
    rest.length < fuel →
    chainDataLoop s fuel curr = some (rest.map Prod.snd) := by
  intro rest
  induction rest with
  | nil =>
    intro fuel curr hw _ hfuel
    obtain ⟨fuel', rfl⟩ : ∃ f, fuel = f + 1 := ⟨fuel - 1, by omega⟩
    have hcur : curr = s.tail := Option.some.inj hw.1
    simp [chainDataLoop, hcur]
  | cons hd tl ih =>
    intro fuel curr hw hnt hfuel
    obtain ⟨i, x⟩ := hd
    obtain ⟨fuel', rfl⟩ : ∃ f, fuel = f + 1 := ⟨fuel - 1, by omega⟩
    obtain ⟨hc, hval, hrest⟩ := hw
    have hcur : curr = i := Option.some.inj hc
    subst hcur
    have hne : curr ≠ s.tail := by
      intro heq
      exact hnt (by simp [← heq])
    obtain ⟨c2, hc2, hw2⟩ : ∃ c2, nextAt s curr = some c2 ∧
        walks s (some c2) (tl ++ [(s.tail, tv)]) none := by
      obtain ⟨j, y, rest2, heq⟩ : ∃ j y rest2,
          tl ++ [(s.tail, tv)] = (j, y) :: rest2 := by
        cases tl with
        | nil => exact ⟨s.tail, tv, [], rfl⟩
        | cons hd2 tl2 => exact ⟨hd2.1, hd2.2, tl2 ++ [(s.tail, tv)], by simp⟩
      have hrestC : walks s (nextAt s curr) ((j, y) :: rest2) none := by
        rw [← heq]
        exact hrest
      obtain ⟨hp, hv2, hrest2⟩ := hrestC
      exact ⟨j, hp, by rw [heq]; exact ⟨rfl, hv2, hrest2⟩⟩
    obtain ⟨nd, hnd, hndval⟩ := getNode_of_valAt hval
    have hndnext : nd.next = some c2 := by
      unfold nextAt at hc2
      rw [hnd] at hc2
      exact hc2
    rw [chainDataLoop]
    rw [if_neg hne, hnd]
    dsimp only
    rw [hndnext]
    dsimp only
    rw [ih fuel' c2 hw2 (fun hmem => hnt (by simp [hmem]))
      (by simp at hfuel; omega)]
    rw [hndval]
    rfl

/-- On a well-formed chain, `chainData` reads off exactly the data
values. -/
theorem chainData_spec {s : LState α} {data : List (Nat × α)} {hv tv : α}
    (h : ChainRep s data hv tv) : chainData s = some (data.map Prod.snd) := by
  obtain ⟨-, hhv, hrest⟩ := h
  have hrep : ChainRep s data hv tv := ⟨rfl, hhv, hrest⟩
  obtain ⟨c0, hc0, hw0⟩ : ∃ c0, nextAt s s.head = some c0 ∧
      walks s (some c0) (data ++ [(s.tail, tv)]) none := by
    obtain ⟨j, y, rest2, heq⟩ : ∃ j y rest2,
        data ++ [(s.tail, tv)] = (j, y) :: rest2 := by
      cases data with
      | nil => exact ⟨s.tail, tv, [], rfl⟩
      | cons hd2 tl2 => exact ⟨hd2.1, hd2.2, tl2 ++ [(s.tail, tv)], by simp⟩
    have hrestC : walks s (nextAt s s.head) ((j, y) :: rest2) none := by
      rw [← heq]
      exact hrest
    obtain ⟨hp, hv2, hrest2⟩ := hrestC
    exact ⟨j, hp, by rw [heq]; exact ⟨rfl, hv2, hrest2⟩⟩
  unfold chainData
  rw [hc0]
  exact chainDataLoop_spec data (s.mem.length + 1) c0 hw0 hrep.tail_not_data
    (by have := hrep.data_short; omega)

theorem seqSizeLoop_spec {s : LState Int} {tv : Int} :
    ∀ (rest : List (Nat × Int)) (fuel curr acc : Nat),
    walks s (some curr) (rest ++ [(s.tail, tv)]) none →
    s.tail ∉ rest.map Prod.fst →
    rest.length < fuel →
    seqSizeLoop s fuel curr acc = some (acc + rest.length) := by
  intro rest
  induction rest with
  | nil =>
    intro fuel curr acc hw _ hfuel
    obtain ⟨fuel', rfl⟩ : ∃ f, fuel = f + 1 := ⟨fuel - 1, by omega⟩
    have hcur : curr = s.tail := Option.some.inj hw.1
    simp [seqSizeLoop, hcur]
  | cons hd tl ih =>
    intro fuel curr acc hw hnt hfuel
    obtain ⟨i, x⟩ := hd
    obtain ⟨fuel', rfl⟩ : ∃ f, fuel = f + 1 := ⟨fuel - 1, by omega⟩
    obtain ⟨hc, hval, hrest⟩ := hw
    have hcur : curr = i := Option.some.inj hc
    subst hcur
    have hne : curr ≠ s.tail := by
      intro heq
      exact hnt (by simp [← heq])
    obtain ⟨c2, hc2, hw2⟩ : ∃ c2, nextAt s curr = some c2 ∧
        walks s (some c2) (tl ++ [(s.tail, tv)]) none := by
      obtain ⟨j, y, rest2, heq⟩ : ∃ j y rest2,
          tl ++ [(s.tail, tv)] = (j, y) :: rest2 := by
        cases tl with
        | nil => exact ⟨s.tail, tv, [], rfl⟩
        | cons hd2 tl2 => exact ⟨hd2.1, hd2.2, tl2 ++ [(s.tail, tv)], by simp⟩
      have hrestC : walks s (nextAt s curr) ((j, y) :: rest2) none := by
        rw [← heq]
        exact hrest
      obtain ⟨hp, hv2, hrest2⟩ := hrestC
      exact ⟨j, hp, by rw [heq]; exact ⟨rfl, hv2, hrest2⟩⟩
    rw [seqSizeLoop]
    rw [if_neg hne, hc2]
    dsimp only
    rw [ih fuel' c2 (acc + 1) hw2 (fun hmem => hnt (by simp [hmem]))
      (by simp at hfuel; omega)]
    congr 1
    simp
    omega

/-- On a well-formed chain the sequential `size` traversal counts
exactly the data nodes. -/
theorem seqSize_spec {s : LState Int} {data : List (Nat × Int)} {hv tv : Int}
    (h : ChainRep s data hv tv) : seqSize s = some data.length := by
  obtain ⟨-, hhv, hrest⟩ := h
  have hrep : ChainRep s data hv tv := ⟨rfl, hhv, hrest⟩
  obtain ⟨c0, hc0, hw0⟩ : ∃ c0, nextAt s s.head = some c0 ∧
      walks s (some c0) (data ++ [(s.tail, tv)]) none := by
    obtain ⟨j, y, rest2, heq⟩ : ∃ j y rest2,
        data ++ [(s.tail, tv)] = (j, y) :: rest2 := by
      cases data with
      | nil => exact ⟨s.tail, tv, [], rfl⟩
      | cons hd2 tl2 => exact ⟨hd2.1, hd2.2, tl2 ++ [(s.tail, tv)], by simp⟩
    have hrestC : walks s (nextAt s s.head) ((j, y) :: rest2) none := by
      rw [← heq]
      exact hrest
    obtain ⟨hp, hv2, hrest2⟩ := hrestC
    exact ⟨j, hp, by rw [heq]; exact ⟨rfl, hv2, hrest2⟩⟩
  unfold seqSize
  rw [hc0]
  dsimp only
  rw [seqSizeLoop_spec data (s.mem.length + 1) c0 0 hw0 hrep.tail_not_data
    (by have := hrep.data_short; omega)]
  simp

/-! ## Priority queue characterization -/

theorem chainRep_append_mem {s : LState α} {data : List (Nat × α)} {hv tv : α}
    (h : ChainRep s data hv tv) (ext : List (Node α)) :
    ChainRep { s with mem := s.mem ++ ext } data hv tv := by
  have hbound := h.ids_bound
  unfold ChainRep
  apply walks_congr _ h
  intro i hi
  apply getNode_append
  apply hbound
  simpa using hi

theorem getNode_setNext_self {s : LState α} {i : Nat} {nd : Node α}
    (nn : Option Nat) (h : getNode s i = some nd) :
    getNode (setNext s i nn) i = some { nd with next := nn } := by
  have h' : s.mem.get? i = some nd := h
  unfold getNode setNext
  rw [setNextMem_get, if_pos rfl, h']
  rfl

/-- `push` always inserts: the new node lands at the `takeWhile` /
`dropWhile` split under `cmp`, i.e. before the first element not less
than `v` — in particular before every element of equal priority. -/
theorem pqPush_spec (cmp : α → α → Bool) {s : LState α}
    {data : List (Nat × α)} {hv tv : α} (v : α)
    (h : ChainRep s data hv tv) :
    ∃ s', pqPush cmp s v = (Except.ok (), s') ∧
      ChainRep s' (data.takeWhile (fun q => cmp q.2 v) ++
        (s.mem.length, v) :: data.dropWhile (fun q => cmp q.2 v)) hv tv ∧
      s'.sz = s.sz + 1 ∧ s'.head = s.head ∧ s'.tail = s.tail ∧
      s'.mem.length = s.mem.length + 1 := by
  set P := data.takeWhile (fun q => cmp q.2 v) with hP
  set S := data.dropWhile (fun q => cmp q.2 v) with hS
  set po := predOut s.head P with hpo
  set newId := s.mem.length with hnewId
  set s0 : LState α := { s with mem := s.mem ++ [⟨v, none⟩] } with hs0
  have h0 : ChainRep s0 data hv tv := chainRep_append_mem h [⟨v, none⟩]
  have hsplit : data = P ++ S := (List.takeWhile_append_dropWhile ..).symm
  have hbound := h.ids_bound
  have hpoMem : po ∈ s.head :: data.map Prod.fst ++ [s.tail] :=
    predOut_mem_full hsplit
  have hpolt : po < s.mem.length := hbound po hpoMem
  have hfind := findHoh_spec h0 cmp v
  have hcurr : currOut s0 S = currOut s S := by
    cases S with
    | nil => rfl
    | cons hd tl => rfl
  set co := currOut s S with hco
  set s1 := setNext s0 newId (some co) with hs1
  set s2 := setNext s1 po (some newId) with hs2
  have hs0head : s0.head = s.head := rfl
  have hs0len : s0.mem.length = s.mem.length + 1 := by simp [hs0]
  refine ⟨{ s2 with sz := s2.sz + 1 }, ?_, ?_, ?_, ?_, ?_, ?_⟩
  · have hcurrRaw : currOut s0 (data.dropWhile (fun q => cmp q.2 v)) =
        currOut s (data.dropWhile (fun q => cmp q.2 v)) := by
      cases hdw : data.dropWhile (fun q => cmp q.2 v) <;> rfl
    simp only [pqPush, pqPushA, find_and_lock_for_push, if_true]
    rw [← hs0, hfind]
    dsimp only
    rw [hcurrRaw]
  · apply chainRep_insert h hsplit
    · simp [hs2, hs1, hs0]
    · simp [hs2, hs1, hs0]
    · intro i hi hine
      have hilt : i < s.mem.length := hbound i hi
      have g1 : getNode ({ s2 with sz := s2.sz + 1 } : LState α) i = getNode s2 i := rfl
      rw [g1, hs2, getNode_setNext_ne _ (fun heq => hine heq.symm)]
      rw [hs1, getNode_setNext_ne _ (by omega : newId ≠ i)]
      exact getNode_append hilt
    · have g1 : valAt ({ s2 with sz := s2.sz + 1 } : LState α) po = valAt s2 po := rfl
      rw [g1, hs2, valAt_setNext, hs1, valAt_setNext]
      show valAt s0 po = valAt s po
      unfold valAt
      rw [hs0, getNode_append hpolt]
    · have g1 : nextAt ({ s2 with sz := s2.sz + 1 } : LState α) po = nextAt s2 po := rfl
      rw [g1, hs2]
      apply nextAt_setNext_self
      rw [hs1]
      simp only [setNext_mem_length]
      simp
      omega
    · have g1 : getNode ({ s2 with sz := s2.sz + 1 } : LState α) newId =
          getNode s2 newId := rfl
      have hpone : po ≠ newId := by omega
      rw [g1, hs2, getNode_setNext_ne _ hpone, hs1]
      have hbase : getNode s0 newId = some ⟨v, none⟩ := by
        rw [hs0, hnewId]
        exact getNode_append_self s ⟨v, none⟩
      rw [getNode_setNext_self (some co) hbase]
  · simp [hs2, hs1, hs0]
  · simp [hs2, hs1, hs0]
  · simp [hs2, hs1, hs0]
  · rw [hs2]
    simp only [setNext_mem_length]
    rw [hs1]
    simp only [setNext_mem_length]
    rw [hs0len]

theorem popLoop_spec {s : LState α} {tv : α} :
    ∀ (D : List (Nat × α)) (li : Nat) (lv : α) (fuel pp nd : Nat),
    walks s (some nd) ((D ++ [(li, lv)]) ++ [(s.tail, tv)]) none →
    s.tail ∉ (D ++ [(li, lv)]).map Prod.fst →
    (D ++ [(li, lv)]).length < fuel →
    popLoop s fuel pp nd =
      (Except.ok (some lv),
       { setNext s (predOut pp D) (some s.tail) with sz := s.sz - 1 }) := by
  intro D
  induction D with
  | nil =>
    intro li lv fuel pp nd hw hnt hfuel
    obtain ⟨fuel', rfl⟩ : ∃ f, fuel = f + 1 := ⟨fuel - 1, by omega⟩
    obtain ⟨hc, hval, hrest⟩ := hw
    have hnd : nd = li := Option.some.inj hc
    subst hnd
    obtain ⟨hnx, -, -⟩ := hrest
    obtain ⟨nd0, hnd0, hnd0val⟩ := getNode_of_valAt hval
    have hnd0next : nd0.next = some s.tail := by
      unfold nextAt at hnx
      rw [hnd0] at hnx
      exact hnx
    rw [popLoop, hnd0]
    dsimp only
    rw [hnd0next]
    dsimp only
    rw [if_pos rfl]
    have hszNote : (setNext s pp (some s.tail)).sz = s.sz := setNext_sz ..
    rw [hnd0val, hszNote]
    rfl
  | cons hd D' ih =>
    intro li lv fuel pp nd hw hnt hfuel
    obtain ⟨m, y⟩ := hd
    obtain ⟨fuel', rfl⟩ : ∃ f, fuel = f + 1 := ⟨fuel - 1, by omega⟩
    obtain ⟨hc, hval, hrest⟩ := hw
    have hnd : nd = m := Option.some.inj hc
    subst hnd
    obtain ⟨c2, hc2, hw2⟩ : ∃ c2, nextAt s nd = some c2 ∧
        walks s (some c2) ((D' ++ [(li, lv)]) ++ [(s.tail, tv)]) none := by
      obtain ⟨j, yy, rest2, heq⟩ : ∃ j yy rest2,
          (D' ++ [(li, lv)]) ++ [(s.tail, tv)] = (j, yy) :: rest2 := by
        cases D' with
        | nil => exact ⟨li, lv, [(s.tail, tv)], rfl⟩
        | cons hd2 tl2 =>
          exact ⟨hd2.1, hd2.2, (tl2 ++ [(li, lv)]) ++ [(s.tail, tv)], by simp⟩
      have hrestC : walks s (nextAt s nd) ((j, yy) :: rest2) none := by
        rw [← heq]
        simpa using hrest
      obtain ⟨hp, hv2, hrest2⟩ := hrestC
      exact ⟨j, hp, by rw [heq]; exact ⟨rfl, hv2, hrest2⟩⟩
    obtain ⟨nd0, hnd0, hnd0val⟩ := getNode_of_valAt hval
    have hnd0next : nd0.next = some c2 := by
      unfold nextAt at hc2
      rw [hnd0] at hc2
      exact hc2
    have hc2head : c2 ∈ (D' ++ [(li, lv)]).map Prod.fst := by
      cases hD : D' with
      | nil =>
        rw [hD] at hw2
        obtain ⟨hp2, -, -⟩ := hw2
        have h1 : c2 = li := Option.some.inj hp2
        simp [h1]
      | cons hd2 tl2 =>
        obtain ⟨m2, y2⟩ := hd2
        rw [hD] at hw2
        obtain ⟨hp2, -, -⟩ := hw2
        have h1 : c2 = m2 := Option.some.inj hp2
        simp [hD, h1]
    have hc2ne : c2 ≠ s.tail := by
      intro heq
      apply hnt
      rw [heq] at hc2head
      simp at hc2head ⊢
      tauto
    rw [popLoop, hnd0]
    dsimp only
    rw [hnd0next]
    dsimp only
    rw [if_neg hc2ne]
    rw [ih li lv fuel' nd c2 hw2
      (fun hmem => hnt (by simp at hmem ⊢; tauto))
      (by simp at hfuel ⊢; omega)]
    rw [predOut_cons]

/-- `pop` on the empty queue: only sentinels remain, report empty,
change nothing. -/
theorem pqPop_empty {s : LState α} {hv tv : α}
    (h : ChainRep s [] hv tv) : pqPop s = (Except.ok none, s) := by
  obtain ⟨-, -, hrest⟩ := h
  obtain ⟨hnx, -, -⟩ := hrest
  unfold pqPop
  rw [hnx]
  dsimp only
  rw [if_pos rfl]

/-- `pop` on a non-empty queue removes the node immediately before the
tail sentinel and returns its value. -/
theorem pqPop_last {s : LState α} {data D : List (Nat × α)} {li : Nat}
    {lv hv tv : α}
    (h : ChainRep s data hv tv) (hdata : data = D ++ [(li, lv)]) :
    ∃ s', pqPop s = (Except.ok (some lv), s') ∧
      ChainRep s' D hv tv ∧
      s'.sz = s.sz - 1 ∧ s'.head = s.head ∧ s'.tail = s.tail ∧
      s'.mem.length = s.mem.length := by
  have hbound := h.ids_bound
  have htaildata := h.tail_not_data
  have hshort := h.data_short
  obtain ⟨-, hhv, hrest⟩ := h
  have hrep : ChainRep s data hv tv := ⟨rfl, hhv, hrest⟩
  obtain ⟨c0, hc0, hw0⟩ : ∃ c0, nextAt s s.head = some c0 ∧
      walks s (some c0) (data ++ [(s.tail, tv)]) none := by
    obtain ⟨j, y, rest2, heq⟩ : ∃ j y rest2,
        data ++ [(s.tail, tv)] = (j, y) :: rest2 := by
      cases data with
      | nil => exact ⟨s.tail, tv, [], rfl⟩
      | cons hd2 tl2 => exact ⟨hd2.1, hd2.2, tl2 ++ [(s.tail, tv)], by simp⟩
    have hrestC : walks s (nextAt s s.head) ((j, y) :: rest2) none := by
      rw [← heq]
      exact hrest
    obtain ⟨hp, hv2, hrest2⟩ := hrestC
    exact ⟨j, hp, by rw [heq]; exact ⟨rfl, hv2, hrest2⟩⟩
  have hc0mem : c0 ∈ data.map Prod.fst := by
    cases hD : data with
    | nil => rw [hD] at hdata; exact absurd hdata (by simp)
    | cons hd2 tl2 =>
      obtain ⟨m2, y2⟩ := hd2
      rw [hD] at hw0
      obtain ⟨hp2, -, -⟩ := hw0
      have h1 : c0 = m2 := Option.some.inj hp2
      simp [hD, h1]
  have hc0ne : c0 ≠ s.tail := by
    intro heq
    exact htaildata (heq ▸ hc0mem)
  set po := predOut s.head D with hpo
  have hpoMem : po ∈ s.head :: data.map Prod.fst ++ [s.tail] :=
    predOut_mem_full (by rw [hdata] : data = D ++ [(li, lv)])
  have hpolt : po < s.mem.length := hbound po hpoMem
  have hloop := popLoop_spec D li lv (s.mem.length + 1) s.head c0
    (by rw [← hdata]; exact hw0)
    (by rw [← hdata]; exact htaildata)
    (by rw [← hdata]; omega)
  refine ⟨{ setNext s po (some s.tail) with sz := s.sz - 1 }, ?_, ?_, ?_, ?_, ?_, ?_⟩
  · unfold pqPop
    rw [hc0]
    dsimp only
    rw [if_neg hc0ne]
    exact hloop
  · have hDD : D ++ ([] : List (Nat × α)) = D := by simp
    rw [← hDD]
    apply chainRep_remove hrep
      (by rw [hdata] : data = D ++ (li, lv) :: [])
    · rfl
    · rfl
    · intro i hi hine
      have g1 : getNode ({ setNext s po (some s.tail) with sz := s.sz - 1 } : LState α) i
          = getNode (setNext s po (some s.tail)) i := rfl
      rw [g1]
      exact getNode_setNext_ne _ (fun heq => hine heq.symm)
    · have g1 : valAt ({ setNext s po (some s.tail) with sz := s.sz - 1 } : LState α) po
          = valAt (setNext s po (some s.tail)) po := rfl
      rw [g1, valAt_setNext]
    · have g1 : nextAt ({ setNext s po (some s.tail) with sz := s.sz - 1 } : LState α) po
          = nextAt (setNext s po (some s.tail)) po := rfl
      rw [g1, nextAt_setNext_self _ hpolt]
      rfl
  · simp
  · simp
  · simp
  · simp

/-! ## Priority queue invariant -/

/-- Asymmetry of a strict-weak-order comparator (required of `Compare`
by the C++ standard). -/
def CmpAsymm (cmp : α → α → Bool) : Prop :=
  ∀ a b, cmp a b = true → cmp b a = false

/-- Negative transitivity of a strict-weak-order comparator. -/
def CmpNegTrans (cmp : α → α → Bool) : Prop :=
  ∀ a b c, cmp a b = false → cmp b c = false → cmp a c = false

/-- Invariant of the fine-locked priority queue: well-formed chain,
data values non-decreasing under `cmp` (adjacent pairs `(a, b)` satisfy
`!cmp(b, a)`), all values inside the sentinel bracket, and an accurate
size counter. -/
def PQInv (cmp : α → α → Bool) (minv maxv : α) (s : LState α) : Prop :=
  ∃ data, ChainRep s data minv maxv ∧
    List.Chain' (fun a b => cmp b a = false) (data.map Prod.snd) ∧
    (∀ x ∈ data.map Prod.snd, cmp x minv = false ∧ cmp maxv x = false) ∧
    s.sz = data.length

theorem length_tw_dw (p : β → Bool) (l : List β) :
    (l.takeWhile p).length + (l.dropWhile p).length = l.length := by
  have hlen := congrArg List.length (List.takeWhile_append_dropWhile p l)
  rw [List.length_append] at hlen
  exact hlen

/-- Inserting at the `takeWhile`/`dropWhile` split keeps the chain
non-decreasing under an asymmetric comparator. -/
theorem pq_insert_sorted (cmp : α → α → Bool) (hasymm : CmpAsymm cmp)
    {data : List (Nat × α)} {v : α} {newId : Nat}
    (hsorted : List.Chain' (fun a b => cmp b a = false) (data.map Prod.snd)) :
    List.Chain' (fun a b => cmp b a = false)
      ((data.takeWhile (fun q => cmp q.2 v) ++
        (newId, v) :: data.dropWhile (fun q => cmp q.2 v)).map Prod.snd) := by
  set P := data.takeWhile (fun q => cmp q.2 v) with hP
  set S := data.dropWhile (fun q => cmp q.2 v) with hS
  have hsplit : data = P ++ S := (List.takeWhile_append_dropWhile ..).symm
  have hsorted2 : List.Chain' (fun a b => cmp b a = false)
      (P.map Prod.snd ++ S.map Prod.snd) := by
    have : data.map Prod.snd = P.map Prod.snd ++ S.map Prod.snd := by
      rw [hsplit]; simp
    rwa [this] at hsorted
  obtain ⟨hcP, hcS, -⟩ := List.chain'_append.mp hsorted2
  have hmapEq : ((P ++ (newId, v) :: S).map Prod.snd) =
      P.map Prod.snd ++ v :: S.map Prod.snd := by simp
  rw [hmapEq, List.chain'_append]
  refine ⟨hcP, ?_, ?_⟩
  · rw [List.chain'_cons']
    refine ⟨?_, hcS⟩
    intro y hy
    have hy' : (S.map Prod.snd).head? = some y := Option.mem_def.mp hy
    rw [List.head?_map] at hy'
    obtain ⟨q, hq, hqy⟩ := Option.map_eq_some'.mp hy'
    cases hScase : S with
    | nil => rw [hScase] at hq; simp at hq
    | cons hd S2 =>
      rw [hScase] at hq
      have hdq : hd = q := by simpa using hq
      have hdrop : data.dropWhile (fun r => cmp r.2 v) = hd :: S2 := by
        rw [← hS]
        exact hScase
      have hfalse : (fun r : Nat × α => cmp r.2 v) hd = false :=
        dropWhile_head_false (fun r : Nat × α => cmp r.2 v) hdrop
      simp only at hfalse
      rw [← hqy, ← hdq]
      exact hfalse
  · intro x hx y hy
    have hxP : x ∈ P.map Prod.snd := by
      cases hP2 : (P.map Prod.snd).getLast? with
      | none => rw [hP2] at hx; simp at hx
      | some a =>
        rw [hP2] at hx
        simp at hx
        have hmem2 : a ∈ (P.map Prod.snd).getLast? := hP2
        obtain ⟨hne2, hxa⟩ := List.mem_getLast?_eq_getLast hmem2
        rw [← hx, hxa]
        exact List.getLast_mem hne2
    obtain ⟨q, hq, hqx⟩ := List.mem_map.mp hxP
    have htw := List.mem_takeWhile_imp hq
    simp only at htw
    simp at hy
    rw [← hy, ← hqx]
    exact hasymm q.2 v htw

theorem chainRep_pqNew (minv maxv : α) :
    ChainRep (pqNew minv maxv) ([] : List (Nat × α)) minv maxv :=
  ⟨rfl, rfl, rfl, rfl, rfl⟩

/-- Every reachable PQ state (under an asymmetric comparator)
satisfies the invariant. -/
theorem pqInv_reach {cmp : α → α → Bool} {minv maxv : α} {s : LState α}
    (hasymm : CmpAsymm cmp) (h : PQReach cmp minv maxv s) :
    PQInv cmp minv maxv s := by
  induction h with
  | init =>
    exact ⟨[], chainRep_pqNew minv maxv, by simp, by simp, rfl⟩
  | push s v h1 h2 _ ih =>
    obtain ⟨data, hrep, hsorted, hbnds, hsz⟩ := ih
    obtain ⟨s', heq, hrep', hsz', -, -, -⟩ := pqPush_spec cmp v hrep
    rw [heq]
    refine ⟨_, hrep', pq_insert_sorted cmp hasymm hsorted, ?_, ?_⟩
    · intro x hx
      simp only [List.map_append, List.map_cons] at hx
      rcases List.mem_append.mp hx with hx | hx
      · exact hbnds x (by
          rw [← List.takeWhile_append_dropWhile (fun q => cmp q.2 v) data]
          simp only [List.map_append]
          exact List.mem_append_left _ hx)
      · rcases List.mem_cons.mp hx with hx | hx
        · rw [hx]; exact ⟨h1, h2⟩
        · exact hbnds x (by
            rw [← List.takeWhile_append_dropWhile (fun q => cmp q.2 v) data]
            simp only [List.map_append]
            exact List.mem_append_right _ hx)
    · have hlen := length_tw_dw (fun q => cmp q.2 v) data
      simp only [List.length_append, List.length_cons]
      omega
  | pop s _ ih =>
    obtain ⟨data, hrep, hsorted, hbnds, hsz⟩ := ih
    rcases List.eq_nil_or_concat data with hnil | ⟨D, last, hconcat⟩
    · subst hnil
      rw [pqPop_empty hrep]
      exact ⟨[], hrep, by simp, by simp, hsz⟩
    · obtain ⟨li, lv⟩ := last
      rw [List.concat_eq_append] at hconcat
      obtain ⟨s', heq, hrep', hsz', -, -, -⟩ := pqPop_last hrep hconcat
      rw [heq]
      refine ⟨D, hrep', ?_, ?_, ?_⟩
      · have : data.map Prod.snd = D.map Prod.snd ++ [lv] := by
          rw [hconcat]; simp
        rw [this] at hsorted
        exact (List.chain'_append.mp hsorted).1
      · intro x hx
        apply hbnds
        rw [hconcat]
        simp only [List.map_append]
        exact List.mem_append_left _ hx
      · have hl : data.length = D.length + 1 := by rw [hconcat]; simp
        show s'.sz = D.length
        omega

/-! ## Further helpers -/

theorem tw_dw_append (p : β → Bool) :
    ∀ (P S : List β), (∀ q ∈ P, p q = true) → (∀ q ∈ S.head?, p q = false) →
    (P ++ S).takeWhile p = P ∧ (P ++ S).dropWhile p = S := by
  intro P
  induction P with
  | nil =>
    intro S _ hS
    cases S with
    | nil => simp
    | cons x S2 =>
      have hx : p x = false := hS x rfl
      simp [List.takeWhile_cons, List.dropWhile_cons, hx]
  | cons a P2 ih =>
    intro S hP hS
    have ha : p a = true := hP a (by simp)
    obtain ⟨ht, hd⟩ := ih S (fun q hq => hP q (by simp [hq])) hS
    constructor
    · simp [List.takeWhile_cons, ha, ht]
    · simp [List.dropWhile_cons, ha, hd]

/-- The last element of a non-decreasing chain dominates every earlier
element, given negative transitivity. -/
theorem chain_last_max {cmp : α → α → Bool} (hneg : CmpNegTrans cmp)
    {vals : List α} {lv : α}
    (hchain : List.Chain' (fun a b => cmp b a = false) (vals ++ [lv])) :
    ∀ u ∈ vals, cmp lv u = false := by
  haveI : IsTrans α (fun a b => cmp b a = false) :=
    ⟨fun a b c hab hbc => hneg c b a hbc hab⟩
  have hpw := List.chain'_iff_pairwise.mp hchain
  rw [List.pairwise_append] at hpw
  intro u hu
  exact hpw.2.2 u hu lv (by simp)

/-- The pair returned by the search loop is always adjacent:
`pred->next == curr`. -/
theorem findLoop_adj (lt : α → α → Bool) (s : LState α) (v : α) :
    ∀ (fuel pred curr : Nat), nextAt s pred = some curr →
    ∀ {po co : Nat}, findLoop lt s v fuel pred curr = some (po, co) →
    nextAt s po = some co := by
  intro fuel
  induction fuel with
  | zero => intro pred curr _ po co h; simp [findLoop] at h
  | succ fuel' ih =>
    intro pred curr hadj po co h
    rw [findLoop] at h
    by_cases hct : curr = s.tail
    · rw [if_pos hct] at h
      obtain ⟨h1, h2⟩ := Prod.mk.injEq .. ▸ Option.some.inj h
      rw [← h1, ← h2]
      exact hadj
    · rw [if_neg hct] at h
      cases hval : valAt s curr with
      | none => rw [hval] at h; simp at h
      | some x =>
        rw [hval] at h
        dsimp only at h
        by_cases hlt : lt x v
        · rw [if_pos hlt] at h
          cases hnx : nextAt s curr with
          | none => rw [hnx] at h; simp at h
          | some c2 =>
            rw [hnx] at h
            exact ih curr c2 hnx h
        · rw [if_neg hlt] at h
          obtain ⟨h1, h2⟩ := Prod.mk.injEq .. ▸ Option.some.inj h
          rw [← h1, ← h2]
          exact hadj

theorem findHoh_adj (lt : α → α → Bool) (s : LState α) (v : α)
    {po co : Nat} (h : findHoh lt s v = some (po, co)) :
    nextAt s po = some co := by
  unfold findHoh at h
  cases hnx : nextAt s s.head with
  | none => rw [hnx] at h; simp at h
  | some c0 =>
    rw [hnx] at h
    exact findLoop_adj lt s v (s.mem.length + 1) s.head c0 hnx h

/-! ## Sequential set characterization -/

theorem seqAdd_dup {s : LState Int} {data : List (Nat × Int)} {hv tv v : Int}
    {c : Nat} {S' : List (Nat × Int)}
    (h : ChainRep s data hv tv)
    (hS : data.dropWhile (fun q => intLt q.2 v) = (c, v) :: S') :
    seqAdd s v = (Except.ok false, s) := by
  have hfind := findHoh_spec h intLt v
  have hco : currOut s (data.dropWhile fun q => intLt q.2 v) = c := by
    rw [hS]; rfl
  have hcmem : (c, v) ∈ data := mem_of_dropWhile_mem (by rw [hS]; simp)
  have hcne : c ≠ s.tail := by
    intro heq
    exact h.tail_not_data (heq ▸ List.mem_map_of_mem Prod.fst hcmem)
  have hcval : valAt s c = some v := h.val_of_mem (c, v) hcmem
  unfold seqAdd seqAddA
  rw [hfind, hco]
  dsimp only
  rw [if_pos ⟨hcne, hcval⟩]

theorem seqAdd_ins {s : LState Int} {data : List (Nat × Int)} {hv tv v : Int}
    (h : ChainRep s data hv tv)
    (hS : ∀ q ∈ (data.dropWhile (fun q => intLt q.2 v)).head?, q.2 ≠ v) :
    ∃ s', seqAdd s v = (Except.ok true, s') ∧
      ChainRep s' (data.takeWhile (fun q => intLt q.2 v) ++
        (s.mem.length, v) :: data.dropWhile (fun q => intLt q.2 v)) hv tv ∧
      s'.sz = s.sz ∧ s'.head = s.head ∧ s'.tail = s.tail ∧
      s'.mem.length = s.mem.length + 1 := by
  have hfind := findHoh_spec h intLt v
  set P := data.takeWhile (fun q => intLt q.2 v) with hP
  set S := data.dropWhile (fun q => intLt q.2 v) with hSdef
  set po := predOut s.head P with hpo
  set co := currOut s S with hco
  have hsplit : data = P ++ S := (List.takeWhile_append_dropWhile ..).symm
  have hbound := h.ids_bound
  have hpoMem : po ∈ s.head :: data.map Prod.fst ++ [s.tail] :=
    predOut_mem_full hsplit
  have hpolt : po < s.mem.length := hbound po hpoMem
  have hcond : ¬(co ≠ s.tail ∧ valAt s co = some v) := by
    cases hScase : S with
    | nil =>
      rintro ⟨hne, -⟩
      exact hne (by rw [hco, hScase]; rfl)
    | cons hd2 S' =>
      obtain ⟨c, y⟩ := hd2
      rintro ⟨-, hval⟩
      have hmemS : (c, y) ∈ data.dropWhile (fun q => intLt q.2 v) := by
        rw [← hSdef, hScase]
        simp
      have hcm : (c, y) ∈ data := mem_of_dropWhile_mem hmemS
      have hcv : valAt s c = some y := h.val_of_mem (c, y) hcm
      have hcoc : co = c := by rw [hco, hScase]; rfl
      rw [hcoc, hcv] at hval
      exact hS (c, y) (by rw [hScase]; rfl) (Option.some.inj hval)
  set newId := s.mem.length with hnewId
  set s1 : LState Int := { s with mem := s.mem ++ [⟨v, some co⟩] } with hs1
  set s2 := setNext s1 po (some newId) with hs2
  refine ⟨s2, ?_, ?_, ?_, ?_, ?_, ?_⟩
  · unfold seqAdd seqAddA
    rw [hfind]
    dsimp only
    rw [if_neg hcond, if_pos rfl]
  · apply chainRep_insert h hsplit
    · simp [hs2, hs1]
    · simp [hs2, hs1]
    · intro i hi hine
      have hilt : i < s.mem.length := hbound i hi
      rw [hs2, getNode_setNext_ne _ (fun heq => hine heq.symm)]
      exact getNode_append hilt
    · rw [hs2, valAt_setNext]
      show valAt s1 po = valAt s po
      unfold valAt
      rw [hs1, getNode_append hpolt]
    · rw [hs2]
      apply nextAt_setNext_self
      rw [hs1]
      simp
      omega
    · have hpone : po ≠ newId := by omega
      rw [hs2, getNode_setNext_ne _ hpone, hs1, hnewId]
      exact getNode_append_self s ⟨v, some co⟩
  · simp [hs2, hs1]
  · simp [hs2, hs1]
  · simp [hs2, hs1]
  · rw [hs2]
    simp only [setNext_mem_length]
    simp [hnewId]

theorem seqRemove_hit {s : LState Int} {data : List (Nat × Int)} {hv tv v : Int}
    {c : Nat} {S' : List (Nat × Int)}
    (h : ChainRep s data hv tv)
    (hS : data.dropWhile (fun q => intLt q.2 v) = (c, v) :: S') :
    ∃ s', seqRemove s v = (Except.ok true, s') ∧
      ChainRep s' (data.takeWhile (fun q => intLt q.2 v) ++ S') hv tv ∧
      s'.sz = s.sz ∧ s'.head = s.head ∧ s'.tail = s.tail ∧
      s'.mem.length = s.mem.length := by
  have hfind := findHoh_spec h intLt v
  set P := data.takeWhile (fun q => intLt q.2 v) with hP
  set po := predOut s.head P with hpo
  have hsplit : data = P ++ (c, v) :: S' := by
    conv_lhs => rw [← List.takeWhile_append_dropWhile (fun q => intLt q.2 v) data]
    rw [hS]
  have hbound := h.ids_bound
  have hpoMem : po ∈ s.head :: data.map Prod.fst ++ [s.tail] :=
    predOut_mem_full hsplit
  have hpolt : po < s.mem.length := hbound po hpoMem
  have hco : currOut s (data.dropWhile fun q => intLt q.2 v) = c := by
    rw [hS]; rfl
  have hcmem : (c, v) ∈ data := mem_of_dropWhile_mem (by rw [hS]; simp)
  have hcne : c ≠ s.tail := by
    intro heq
    exact h.tail_not_data (heq ▸ List.mem_map_of_mem Prod.fst hcmem)
  have hcval : valAt s c = some v := h.val_of_mem (c, v) hcmem
  have hcnext : nextAt s c = some (currOut s S') :=
    chainRep_next_of_split h hsplit
  refine ⟨setNext s po (nextAt s c), ?_, ?_, ?_, ?_, ?_, ?_⟩
  · unfold seqRemove
    rw [hfind, hco]
    dsimp only
    rw [if_pos ⟨hcne, hcval⟩]
  · apply chainRep_remove h hsplit
    · simp
    · simp
    · intro i hi hine
      exact getNode_setNext_ne _ (fun heq => hine heq.symm)
    · rw [valAt_setNext]
    · rw [nextAt_setNext_self _ hpolt]
      exact hcnext
  · simp
  · simp
  · simp
  · simp

theorem seqRemove_miss {s : LState Int} {data : List (Nat × Int)} {hv tv v : Int}
    (h : ChainRep s data hv tv)
    (hS : ∀ q ∈ (data.dropWhile (fun q => intLt q.2 v)).head?, q.2 ≠ v) :
    seqRemove s v = (Except.ok false, s) := by
  have hfind := findHoh_spec h intLt v
  set S := data.dropWhile (fun q => intLt q.2 v) with hSdef
  set co := currOut s S with hco
  have hcond : ¬(co ≠ s.tail ∧ valAt s co = some v) := by
    cases hScase : S with
    | nil =>
      rintro ⟨hne, -⟩
      exact hne (by rw [hco, hScase]; rfl)
    | cons hd2 S2 =>
      obtain ⟨c, y⟩ := hd2
      rintro ⟨-, hval⟩
      have hmemS : (c, y) ∈ data.dropWhile (fun q => intLt q.2 v) := by
        rw [← hSdef, hScase]
        simp
      have hcm : (c, y) ∈ data := mem_of_dropWhile_mem hmemS
      have hcv : valAt s c = some y := h.val_of_mem (c, y) hcm
      have hcoc : co = c := by rw [hco, hScase]; rfl
      rw [hcoc, hcv] at hval
      exact hS (c, y) (by rw [hScase]; rfl) (Option.some.inj hval)
  unfold seqRemove
  rw [hfind]
  dsimp only
  rw [if_neg hcond]

theorem seqContains_state (s : LState Int) (v : Int) :
    (seqContains s v).2 = s := by
  unfold seqContains
  cases findHoh intLt s v with
  | none => rfl
  | some pc => obtain ⟨p, c⟩ := pc; rfl

/-- Invariant of the sequential set: a well-formed sorted chain (no
counter to track). -/
def SeqInv (s : LState Int) : Prop :=
  ∃ data, SetChainInv s data

theorem seqInv_reach {s : LState Int} (h : SeqReach s) : SeqInv s := by
  induction h with
  | init => exact ⟨[], setChainInv_setNew⟩
  | add s v h1 h2 _ ih =>
    obtain ⟨data, hrep, hsorted, hbnds⟩ := ih
    rcases dropWhile_cases data v with ⟨c, S', hS⟩ | hS
    · rw [seqAdd_dup hrep hS]
      exact ⟨data, hrep, hsorted, hbnds⟩
    · obtain ⟨s', heq, hrep', -, -, -, -⟩ := seqAdd_ins hrep hS
      rw [heq]
      refine ⟨_, hrep', chain_insert_sorted hsorted hS, ?_⟩
      intro x hx
      simp only [List.map_append, List.map_cons] at hx
      rcases List.mem_append.mp hx with hx | hx
      · exact hbnds x (by
          rw [← List.takeWhile_append_dropWhile (fun q => intLt q.2 v) data]
          simp only [List.map_append]
          exact List.mem_append_left _ hx)
      · rcases List.mem_cons.mp hx with hx | hx
        · rw [hx]; exact ⟨h1, h2⟩
        · exact hbnds x (by
            rw [← List.takeWhile_append_dropWhile (fun q => intLt q.2 v) data]
            simp only [List.map_append]
            exact List.mem_append_right _ hx)
  | rem s v _ ih =>
    obtain ⟨data, hrep, hsorted, hbnds⟩ := ih
    rcases dropWhile_cases data v with ⟨c, S', hS⟩ | hS
    · obtain ⟨s', heq, hrep', -, -, -, -⟩ := seqRemove_hit hrep hS
      rw [heq]
      set P := data.takeWhile (fun q => intLt q.2 v) with hP
      have hsubl : List.Sublist (P ++ S') (P ++ (c, v) :: S') :=
        List.Sublist.append_left (List.sublist_cons_self (c, v) S') P
      have hsubl2 : (P ++ (c, v) :: S') = data := by
        conv_rhs => rw [← List.takeWhile_append_dropWhile (fun q => intLt q.2 v) data]
        rw [hS]
      refine ⟨_, hrep', ?_, ?_⟩
      · exact List.Chain'.sublist (hsubl2 ▸ hsorted : List.Chain' _ _)
          (List.Sublist.map Prod.snd (hsubl2 ▸ hsubl))
      · intro x hx
        apply hbnds
        rw [← hsubl2]
        obtain ⟨q, hq, hqx⟩ := List.mem_map.mp hx
        exact hqx ▸ List.mem_map_of_mem Prod.snd (hsubl.mem hq)
    · rw [seqRemove_miss hrep hS]
      exact ⟨data, hrep, hsorted, hbnds⟩
  | con s v _ ih =>
    rw [seqContains_state]
    exact ih

/-! ## Coarse set: same sequential semantics as the fine set -/

theorem coarseAdd_eq_fine {s : LState Int} {data : List (Nat × Int)}
    {hv tv : Int} (h : ChainRep s data hv tv) (v : Int) :
    coarseAdd s v = fineAdd s v := by
  have hfind := findHoh_spec h intLt v
  have hadj := findHoh_adj intLt s v hfind
  unfold coarseAdd coarseAddA find_node_unsafe fineAdd fineAddA find_and_lock_hoh
  rw [hfind]
  simp only [Option.map_some']
  rw [hadj]

theorem coarseRemove_eq_fine {s : LState Int} {data : List (Nat × Int)}
    {hv tv : Int} (h : ChainRep s data hv tv) (v : Int) :
    coarseRemove s v = fineRemove s v := by
  have hfind := findHoh_spec h intLt v
  have hadj := findHoh_adj intLt s v hfind
  unfold coarseRemove find_node_unsafe fineRemove find_and_lock_hoh
  rw [hfind]
  simp only [Option.map_some']
  rw [hadj]

theorem coarseContains_state (s : LState Int) (v : Int) :
    (coarseContains s v).2 = s := by
  unfold coarseContains
  cases find_node_unsafe s v with
  | none => rfl
  | some pred =>
    dsimp only
    cases nextAt s pred with
    | none => rfl
    | some curr => rfl

/-- Every coarse-set state reachable by a sequential run satisfies the
same invariant as the fine set. -/
theorem coarseInv_reach {s : LState Int} (h : CoarseReach s) : SetInv s := by
  induction h with
  | init => exact ⟨[], setChainInv_setNew, rfl⟩
  | add s v h1 h2 _ ih =>
    obtain ⟨data, hchain, hsz⟩ := ih
    rw [coarseAdd_eq_fine hchain.1 v]
    exact setInv_add ⟨data, hchain, hsz⟩ v h1 h2
  | rem s v _ ih =>
    obtain ⟨data, hchain, hsz⟩ := ih
    rw [coarseRemove_eq_fine hchain.1 v]
    exact setInv_remove ⟨data, hchain, hsz⟩ v
  | con s v _ ih =>
    rw [coarseContains_state]
    exact ih

/-! ## check_invariants soundness -/

theorem setCheckLoop_sound (s : LState Int) :
    ∀ (fuel pred curr : Nat), setCheckLoop s fuel pred curr = true →
    ∃ L : List (Nat × Int), walks s (some curr) L (some s.tail) ∧
      (∀ pv, valAt s pred = some pv →
        List.Chain' (· ≤ ·) (pv :: L.map Prod.snd)) ∧
      (L = [] ∨ ∃ pv, valAt s pred = some pv) := by
  intro fuel
  induction fuel with
  | zero => intro pred curr h; simp [setCheckLoop] at h
  | succ fuel' ih =>
    intro pred curr h
    rw [setCheckLoop] at h
    by_cases hct : curr = s.tail
    · rw [if_pos hct] at h
      exact ⟨[], by simp [hct], fun pv _ => by simp, Or.inl rfl⟩
    · rw [if_neg hct] at h
      cases hgn : getNode s curr with
      | none => rw [hgn] at h; simp at h
      | some cn =>
        rw [hgn] at h
        dsimp only at h
        cases hpv : valAt s pred with
        | none => rw [hpv] at h; simp at h
        | some pv0 =>
          rw [hpv] at h
          dsimp only at h
          by_cases hgt : decide (pv0 > cn.val) = true
          · rw [if_pos hgt] at h; simp at h
          · rw [if_neg hgt] at h
            cases hnx : cn.next with
            | none => rw [hnx] at h; simp at h
            | some c2 =>
              rw [hnx] at h
              obtain ⟨L', hw', hch', -⟩ := ih curr c2 h
              have hvc : valAt s curr = some cn.val := by
                unfold valAt
                rw [hgn]
                rfl
              have hnc : nextAt s curr = some c2 := by
                unfold nextAt
                rw [hgn]
                exact hnx
              refine ⟨(curr, cn.val) :: L', ⟨rfl, hvc, by rw [hnc]; exact hw'⟩, ?_,
                Or.inr ⟨pv0, rfl⟩⟩
              intro pv hpveq
              have hpveq2 : pv = pv0 :=
                (Option.some.inj hpveq).symm
              subst hpveq2
              have hle : pv ≤ cn.val := by
                simp at hgt
                omega
              rw [List.map_cons, List.chain'_cons]
              exact ⟨hle, hch' cn.val hvc⟩

theorem pqCheckLoop_sound (cmp : α → α → Bool) (s : LState α) :
    ∀ (fuel pred curr count : Nat), pqCheckLoop cmp s fuel pred curr count = true →
    ∃ L : List (Nat × α), walks s (some curr) L (some s.tail) ∧
      (∀ pv, valAt s pred = some pv →
        List.Chain' (fun a b => cmp b a = false) (pv :: L.map Prod.snd)) ∧
      count + L.length = s.sz ∧
      (L = [] ∨ ∃ pv, valAt s pred = some pv) := by
  intro fuel
  induction fuel with
  | zero => intro pred curr count h; simp [pqCheckLoop] at h
  | succ fuel' ih =>
    intro pred curr count h
    rw [pqCheckLoop] at h
    by_cases hct : curr = s.tail
    · rw [if_pos hct] at h
      rw [Bool.and_eq_true] at h
      have hcnt : count = s.sz := of_decide_eq_true h.2
      exact ⟨[], by simp [hct], fun pv _ => by simp, by simp [hcnt], Or.inl rfl⟩
    · rw [if_neg hct] at h
      cases hgn : getNode s curr with
      | none => rw [hgn] at h; simp at h
      | some cn =>
        rw [hgn] at h
        dsimp only at h
        cases hpv : valAt s pred with
        | none => rw [hpv] at h; simp at h
        | some pv0 =>
          rw [hpv] at h
          dsimp only at h
          by_cases hgt : cmp cn.val pv0 = true
          · rw [if_pos hgt] at h; simp at h
          · rw [if_neg hgt] at h
            cases hnx : cn.next with
            | none => rw [hnx] at h; simp at h
            | some c2 =>
              rw [hnx] at h
              obtain ⟨L', hw', hch', hcnt', -⟩ := ih curr c2 (count + 1) h
              have hvc : valAt s curr = some cn.val := by
                unfold valAt
                rw [hgn]
                rfl
              have hnc : nextAt s curr = some c2 := by
                unfold nextAt
                rw [hgn]
                exact hnx
              refine ⟨(curr, cn.val) :: L', ⟨rfl, hvc, by rw [hnc]; exact hw'⟩, ?_, ?_,
                Or.inr ⟨pv0, rfl⟩⟩
              · intro pv hpveq
                have hpveq2 : pv = pv0 :=
                  (Option.some.inj hpveq).symm
                subst hpveq2
                rw [List.map_cons, List.chain'_cons]
                exact ⟨Bool.eq_false_iff.mpr hgt, hch' cn.val hvc⟩
              · simp at hcnt' ⊢
                omega

/-! ## FIFO behaviour on equal priorities -/

theorem runFIFO_nil (Q : List α) : runFIFO Q ([] : List (PQOp α)) = [] := by
  cases Q <;> rfl

theorem runFIFO_push (Q : List α) (v : α) (rest : List (PQOp α)) :
    runFIFO Q (PQOp.push v :: rest) = runFIFO (Q ++ [v]) rest := by
  cases Q <;> rfl

theorem runFIFO_pop_nil (rest : List (PQOp α)) :
    runFIFO ([] : List α) (PQOp.pop :: rest) = none :: runFIFO [] rest := rfl

theorem runFIFO_pop_cons (x : α) (Q : List α) (rest : List (PQOp α)) :
    runFIFO (x :: Q) (PQOp.pop :: rest) = some x :: runFIFO Q rest := rfl

/-- When every pushed value is `cmp`-equivalent to every stored value,
the search loop stops at the very first data node, so `push` prepends
to the data segment; with `pop` draining from the tail, the structure
behaves exactly as a FIFO queue (the chain holds the queue reversed). -/
theorem runPQ_fifo {cmp : α → α → Bool} {minv maxv p : α}
    (hneg : CmpNegTrans cmp) :
    ∀ (ops : List (PQOp α)) (s : LState α) (Q : List α)
      (data : List (Nat × α)),
    ChainRep s data minv maxv →
    data.map Prod.snd = Q.reverse →
    (∀ x ∈ Q, cmp x p = false ∧ cmp p x = false) →
    (∀ v, PQOp.push v ∈ ops → cmp v p = false ∧ cmp p v = false) →
    runPQ cmp s ops = (runFIFO Q ops).map Except.ok := by
  intro ops
  induction ops with
  | nil =>
    intro s Q data _ _ _ _
    rw [runFIFO_nil]
    rfl
  | cons op rest ih =>
    intro s Q data hrep hvals hQ hops
    cases op with
    | push v =>
      have hv : cmp v p = false ∧ cmp p v = false :=
        hops v (by simp)
      have htwnil : data.takeWhile (fun q => cmp q.2 v) = [] := by
        cases hd : data with
        | nil => simp
        | cons q data2 =>
          rw [List.takeWhile_cons]
          have hq2 : q.2 ∈ Q := by
            have : q.2 ∈ data.map Prod.snd := by
              rw [hd]
              simp
            rw [hvals] at this
            exact List.mem_reverse.mp this
          have hqp : cmp q.2 p = false := (hQ q.2 hq2).1
          have hqv : cmp q.2 v = false := hneg q.2 p v hqp hv.2
          rw [if_neg (by simp [hqv])]
      have hdwid : data.dropWhile (fun q => cmp q.2 v) = data := by
        have := List.takeWhile_append_dropWhile (fun q => cmp q.2 v) data
        rw [htwnil] at this
        simpa using this
      obtain ⟨s', heq, hrep', -, -, -, -⟩ := pqPush_spec cmp v hrep
      rw [htwnil, hdwid] at hrep'
      simp only [List.nil_append] at hrep'
      show runPQ cmp (pqPush cmp s v).2 rest = _
      rw [heq, runFIFO_push]
      have hvals' : ((s.mem.length, v) :: data).map Prod.snd = (Q ++ [v]).reverse := by
        simp [hvals]
      have hQ' : ∀ x ∈ Q ++ [v], cmp x p = false ∧ cmp p x = false := by
        intro x hx
        rcases List.mem_append.mp hx with hx | hx
        · exact hQ x hx
        · simp at hx
          rw [hx]
          exact hv
      have hops' : ∀ w, PQOp.push w ∈ rest → cmp w p = false ∧ cmp p w = false :=
        fun w hw => hops w (by simp [hw])
      exact ih s' (Q ++ [v]) ((s.mem.length, v) :: data) hrep' hvals' hQ' hops'
    | pop =>
      cases hQcase : Q with
      | nil =>
        have hdata : data = [] := by
          have hmapnil : data.map Prod.snd = [] := by rw [hvals, hQcase]; rfl
          exact List.map_eq_nil_iff.mp hmapnil
        subst hdata
        have hpop := pqPop_empty hrep
        show (pqPop s).1 :: runPQ cmp (pqPop s).2 rest = _
        rw [hpop, runFIFO_pop_nil]
        have hrec := ih s [] [] hrep (by simp) (by simp)
          (fun w hw => hops w (by simp [hw]))
        show Except.ok none :: runPQ cmp s rest =
          (none :: runFIFO [] rest).map Except.ok
        rw [hrec]
        rfl
      | cons x Q2 =>
        have hdne : data ≠ [] := by
          intro hd
          rw [hd] at hvals
          rw [hQcase] at hvals
          simp at hvals
        rcases List.eq_nil_or_concat data with hnil | ⟨D, last, hconcat⟩
        · exact absurd hnil hdne
        · obtain ⟨li, lv⟩ := last
          rw [List.concat_eq_append] at hconcat
          have hsplitvals : D.map Prod.snd ++ [lv] = Q2.reverse ++ [x] := by
            have h1 : data.map Prod.snd = D.map Prod.snd ++ [lv] := by
              rw [hconcat]
              simp
            rw [← h1, hvals, hQcase]
            simp
          obtain ⟨hDvals, hlvx⟩ :=
            List.append_inj' hsplitvals (by simp)
          have hlvx2 : lv = x := by simpa using hlvx
          obtain ⟨s', heq, hrep', -, -, -, -⟩ := pqPop_last hrep hconcat
          show (pqPop s).1 :: runPQ cmp (pqPop s).2 rest = _
          rw [heq, runFIFO_pop_cons]
          have hrec := ih s' Q2 D hrep' hDvals
            (fun y hy => hQ y (by rw [hQcase]; simp [hy]))
            (fun w hw => hops w (by simp [hw]))
          show Except.ok (some lv) :: runPQ cmp s' rest =
            (some x :: runFIFO Q2 rest).map Except.ok
          rw [hrec, hlvx2]
          rfl

/-! ## Claims -/

/-- Landing node of the search neither matches `v` when the claim's
absence condition holds: shared step for the `¬(curr ≠ tail ∧ curr->val
== v)` branch. -/
theorem absent_no_hit {s : LState Int} {data : List (Nat × Int)}
    {hv tv v : Int} (h : ChainRep s data hv tv)
    (hS : ∀ q ∈ (data.dropWhile (fun q => intLt q.2 v)).head?, q.2 ≠ v) :
    ¬(currOut s (data.dropWhile (fun q => intLt q.2 v)) ≠ s.tail ∧
      valAt s (currOut s (data.dropWhile (fun q => intLt q.2 v))) = some v) := by
  cases hScase : data.dropWhile (fun q => intLt q.2 v) with
  | nil =>
    rintro ⟨hne, -⟩
    exact hne rfl
  | cons hd2 S2 =>
    obtain ⟨c, y⟩ := hd2
    rintro ⟨-, hval⟩
    have hcm : (c, y) ∈ data := mem_of_dropWhile_mem (by rw [hScase]; simp)
    have hcv : valAt s c = some y := h.val_of_mem (c, y) hcm
    have hcoc : currOut s ((c, y) :: S2) = c := rfl
    rw [hcoc, hcv] at hval
    exact hS (c, y) (by rw [hScase]; rfl) (Option.some.inj hval)

/-- C10: in the fine-locked set, for every state reachable by a
sequential run of `add`/`remove`/`contains`, the hand-over-hand search
always succeeds — its null-pointer error branch is unreachable — and
`contains`, `add` and `remove` all return ordinary results, never the
`"Fine-grained search encountered null node before tail."` error. -/
theorem C10_no_null_before_tail {s : LState Int} (hreach : SetReach s) (v : Int) :
    (∃ pc, find_and_lock_hoh s v = some pc) ∧
    (∃ b, (fineContains s v).1 = Except.ok b) ∧
    (∃ b, (fineAdd s v).1 = Except.ok b) ∧
    (∃ b, (fineRemove s v).1 = Except.ok b) := by
  obtain ⟨data, ⟨hrep, -, -⟩, -⟩ := setInv_reach hreach
  refine ⟨⟨_, findHoh_spec hrep intLt v⟩, ?_, ?_, ?_⟩
  · rcases dropWhile_cases data v with ⟨c, S', hS⟩ | hS
    · exact ⟨true, by rw [fineContains_true hrep hS]⟩
    · exact ⟨false, by rw [fineContains_false hrep hS]⟩
  · rcases dropWhile_cases data v with ⟨c, S', hS⟩ | hS
    · exact ⟨false, by rw [fineAdd_dup hrep hS]⟩
    · obtain ⟨s', heq, -, -, -, -, -⟩ := fineAdd_ins hrep hS
      exact ⟨true, by rw [heq]⟩
  · rcases dropWhile_cases data v with ⟨c, S', hS⟩ | hS
    · obtain ⟨s', heq, -, -, -, -, -⟩ := fineRemove_hit hrep hS
      exact ⟨true, by rw [heq]⟩
    · exact ⟨false, by rw [fineRemove_miss hrep hS]⟩

theorem C10_witness :
    (∃ pc, find_and_lock_hoh setNew 7 = some pc) ∧
    (∃ b, (fineContains setNew 7).1 = Except.ok b) ∧
    (∃ b, (fineAdd setNew 7).1 = Except.ok b) ∧
    (∃ b, (fineRemove setNew 7).1 = Except.ok b) :=
  C10_no_null_before_tail SetReach.init 7

/-- C5: after any sequential run, `size()` returns exactly the number
of data nodes in the chain — by traversal for the sequential variant,
and through the atomic counter for the fine- and coarse-locked
variants. -/
theorem C5_size_counts_data_nodes :
    (∀ s : LState Int, SeqReach s →
      ∃ L : List Int, chainData s = some L ∧ seqSize s = some L.length) ∧
    (∀ s : LState Int, SetReach s →
      ∃ L : List Int, chainData s = some L ∧ fineSize s = L.length) ∧
    (∀ s : LState Int, CoarseReach s →
      ∃ L : List Int, chainData s = some L ∧ coarseSize s = L.length) := by
  refine ⟨?_, ?_, ?_⟩
  · intro s hreach
    obtain ⟨data, hrep, -, -⟩ := seqInv_reach hreach
    refine ⟨data.map Prod.snd, chainData_spec hrep, ?_⟩
    rw [seqSize_spec hrep]
    simp
  · intro s hreach
    obtain ⟨data, ⟨hrep, -, -⟩, hsz⟩ := setInv_reach hreach
    refine ⟨data.map Prod.snd, chainData_spec hrep, ?_⟩
    unfold fineSize
    simp [hsz]
  · intro s hreach
    obtain ⟨data, ⟨hrep, -, -⟩, hsz⟩ := coarseInv_reach hreach
    refine ⟨data.map Prod.snd, chainData_spec hrep, ?_⟩
    unfold coarseSize
    simp [hsz]

theorem C5_witness :
    (∃ L : List Int, chainData ((seqAdd setNew 5).2) = some L ∧
      seqSize ((seqAdd setNew 5).2) = some L.length) ∧
    (∃ L : List Int, chainData ((fineAdd setNew 5).2) = some L ∧
      fineSize ((fineAdd setNew 5).2) = L.length) ∧
    (∃ L : List Int, chainData ((coarseAdd setNew 5).2) = some L ∧
      coarseSize ((coarseAdd setNew 5).2) = L.length) :=
  ⟨C5_size_counts_data_nodes.1 _
     (SeqReach.add setNew 5 (by decide) (by decide) SeqReach.init),
   C5_size_counts_data_nodes.2.1 _
     (SetReach.add setNew 5 (by decide) (by decide) SetReach.init),
   C5_size_counts_data_nodes.2.2 _
     (CoarseReach.add setNew 5 (by decide) (by decide) CoarseReach.init)⟩

/-- C6: when node allocation fails (`new` throws `bad_alloc`), the
failure is surfaced to the caller — as the re-wrapped allocation
`runtime_error` for the set `add`s, and as the raw `bad_alloc` for the
PQ `push` (which allocates before even searching) — and the collection
state is exactly as before the call. -/
theorem C6_alloc_failure_preserves_state :
    (∀ (s : LState Int) (v : Int),
      (seqAddA false s v).2 = s ∧ (fineAddA false s v).2 = s ∧
      (coarseAddA false s v).2 = s) ∧
    (∀ (α : Type) (cmp : α → α → Bool) (s : LState α) (v : α),
      pqPushA cmp false s v = (Except.error "bad_alloc", s)) ∧
    (∀ (s : LState Int) (data : List (Nat × Int)) (hv tv v : Int),
      ChainRep s data hv tv →
      (∀ q ∈ (data.dropWhile (fun q => intLt q.2 v)).head?, q.2 ≠ v) →
      seqAddA false s v = (Except.error allocErr, s) ∧
      fineAddA false s v = (Except.error allocErr, s)) := by
  refine ⟨?_, ?_, ?_⟩
  · intro s v
    refine ⟨?_, ?_, ?_⟩
    · unfold seqAddA
      cases findHoh intLt s v with
      | none => rfl
      | some pc =>
        obtain ⟨p, c⟩ := pc
        dsimp only
        by_cases hc : c ≠ s.tail ∧ valAt s c = some v
        · rw [if_pos hc]
        · rw [if_neg hc]
          rfl
    · unfold fineAddA find_and_lock_hoh
      cases findHoh intLt s v with
      | none => rfl
      | some pc =>
        obtain ⟨p, c⟩ := pc
        dsimp only
        by_cases hc : c ≠ s.tail ∧ valAt s c = some v
        · rw [if_pos hc]
        · rw [if_neg hc]
          rfl
    · unfold coarseAddA find_node_unsafe
      cases findHoh intLt s v with
      | none => rfl
      | some pc =>
        obtain ⟨p, c⟩ := pc
        simp only [Option.map_some']
        cases nextAt s p with
        | none => rfl
        | some c2 =>
          dsimp only
          by_cases hc : c2 ≠ s.tail ∧ valAt s c2 = some v
          · rw [if_pos hc]
          · rw [if_neg hc]
            rfl
  · intro α cmp s v
    rfl
  · intro s data hv tv v hrep hS
    have hfind := findHoh_spec hrep intLt v
    have hcond := absent_no_hit hrep hS
    constructor
    · unfold seqAddA
      rw [hfind]
      dsimp only
      rw [if_neg hcond]
      rfl
    · unfold fineAddA find_and_lock_hoh
      rw [hfind]
      dsimp only
      rw [if_neg hcond]
      rfl

theorem C6_witness :
    ((seqAddA false setNew 5).2 = setNew ∧ (fineAddA false setNew 5).2 = setNew ∧
     (coarseAddA false setNew 5).2 = setNew) ∧
    (pqPushA intLt false (pqNew (-1000) 1000) 5 =
      (Except.error "bad_alloc", pqNew (-1000) 1000)) ∧
    (seqAddA false setNew 5 = (Except.error allocErr, setNew) ∧
     fineAddA false setNew 5 = (Except.error allocErr, setNew)) :=
  ⟨C6_alloc_failure_preserves_state.1 setNew 5,
   C6_alloc_failure_preserves_state.2.1 Int intLt (pqNew (-1000) 1000) 5,
   C6_alloc_failure_preserves_state.2.2 setNew [] INTMIN INTMAX 5
     chainRep_setNew (by simp)⟩

theorem full_chain_of_bounds {R : α → α → Prop} {lo hi : α} {vals : List α}
    (hchain : List.Chain' R vals)
    (hlo : ∀ x ∈ vals, R lo x) (hhi : ∀ x ∈ vals, R x hi) (hlohi : R lo hi) :
    List.Chain' R (lo :: vals ++ [hi]) := by
  rw [show lo :: vals ++ [hi] = (lo :: vals) ++ [hi] from rfl, List.chain'_append]
  refine ⟨?_, by simp, ?_⟩
  · rw [List.chain'_cons']
    exact ⟨fun y hy => hlo y (List.mem_of_mem_head? hy), hchain⟩
  · intro a ha b hb
    simp at hb
    rw [← hb]
    have hamem : a ∈ lo :: vals := by
      have hmem : a ∈ (lo :: vals).getLast? := ha
      obtain ⟨hne2, hxa⟩ := List.mem_getLast?_eq_getLast hmem
      rw [hxa]
      exact List.getLast_mem hne2
    rcases List.mem_cons.mp hamem with h1 | h1
    · rw [h1]; exact hlohi
    · exact hhi a h1

/-- C4: every state reachable by a sequential run keeps the structural
invariants.  Set part: the sentinel-bracketed chain exists (so `tail`
is reachable from `head` and both sentinels hold their extreme
values), the full value chain `INT_MIN :: data ++ [INT_MAX]` is
non-decreasing, and the data values are pairwise distinct.  PQ part:
the same chain structure with the user comparator, the full value
chain non-decreasing under `cmp`. -/
theorem C4_reachable_invariants :
    (∀ s : LState Int, SetReach s →
      ∃ data : List (Nat × Int), ChainRep s data INTMIN INTMAX ∧
        List.Chain' (· ≤ ·) (INTMIN :: data.map Prod.snd ++ [INTMAX]) ∧
        List.Pairwise (· ≠ ·) (data.map Prod.snd)) ∧
    (∀ (α : Type) (cmp : α → α → Bool) (minv maxv : α) (s : LState α),
      CmpAsymm cmp → cmp maxv minv = false → PQReach cmp minv maxv s →
      ∃ data : List (Nat × α), ChainRep s data minv maxv ∧
        List.Chain' (fun a b => cmp b a = false)
          (minv :: data.map Prod.snd ++ [maxv])) := by
  constructor
  · intro s hreach
    obtain ⟨data, ⟨hrep, hsorted, hbnds⟩, -⟩ := setInv_reach hreach
    refine ⟨data, hrep, ?_, ?_⟩
    · apply full_chain_of_bounds
      · exact hsorted.imp (fun _ _ h => le_of_lt h)
      · exact fun x hx => (hbnds x hx).1
      · exact fun x hx => (hbnds x hx).2
      · decide
    · haveI : IsTrans Int (· < ·) := ⟨fun a b c => lt_trans⟩
      have hpw : List.Pairwise (· < ·) (data.map Prod.snd) :=
        List.chain'_iff_pairwise.mp hsorted
      exact hpw.imp (fun h => ne_of_lt h)
  · intro α cmp minv maxv s hasymm hlohi hreach
    obtain ⟨data, hrep, hsorted, hbnds, -⟩ := pqInv_reach hasymm hreach
    refine ⟨data, hrep, ?_⟩
    apply full_chain_of_bounds hsorted
    · exact fun x hx => (hbnds x hx).1
    · exact fun x hx => (hbnds x hx).2
    · exact hlohi

theorem C4_witness :
    (∃ data : List (Nat × Int),
      ChainRep ((fineAdd setNew 5).2) data INTMIN INTMAX ∧
      List.Chain' (· ≤ ·) (INTMIN :: data.map Prod.snd ++ [INTMAX]) ∧
      List.Pairwise (· ≠ ·) (data.map Prod.snd)) ∧
    (∃ data : List (Nat × Int),
      ChainRep ((pqPush intLt (pqNew (-1000) 1000) 5).2) data (-1000) 1000 ∧
      List.Chain' (fun a b => intLt b a = false)
        ((-1000 : Int) :: data.map Prod.snd ++ [(1000 : Int)])) :=
  ⟨C4_reachable_invariants.1 _
     (SetReach.add setNew 5 (by decide) (by decide) SetReach.init),
   C4_reachable_invariants.2 Int intLt (-1000) 1000 _
     (by intro a b hab; simp [intLt] at hab ⊢; omega)
     (by decide)
     (PQReach.push (pqNew (-1000) 1000) 5 (by decide) (by decide) PQReach.init)⟩

/-- C3: on any reachable non-empty PQ state (strict-weak-order
comparator), `pop` returns a value `v` with `!cmp(v, u)` for every
value `u` still in the chain immediately afterwards: the popped
element was maximal under `cmp`. -/
theorem C3_pop_returns_maximum {α : Type} {cmp : α → α → Bool}
    {minv maxv : α} {s : LState α}
    (hasymm : CmpAsymm cmp) (hneg : CmpNegTrans cmp)
    (hreach : PQReach cmp minv maxv s) (hne : chainData s ≠ some []) :
    ∃ (v : α) (s' : LState α) (L : List α),
      pqPop s = (Except.ok (some v), s') ∧ chainData s' = some L ∧
      ∀ u ∈ L, cmp v u = false := by
  obtain ⟨data, hrep, hsorted, -, -⟩ := pqInv_reach hasymm hreach
  rcases List.eq_nil_or_concat data with hnil | ⟨D, last, hconcat⟩
  · subst hnil
    exact absurd (chainData_spec hrep) hne
  · obtain ⟨li, lv⟩ := last
    rw [List.concat_eq_append] at hconcat
    obtain ⟨s', heq, hrep', -, -, -, -⟩ := pqPop_last hrep hconcat
    refine ⟨lv, s', D.map Prod.snd, heq, chainData_spec hrep', ?_⟩
    have hvals : data.map Prod.snd = D.map Prod.snd ++ [lv] := by
      rw [hconcat]
      simp
    rw [hvals] at hsorted
    exact chain_last_max hneg hsorted

theorem C3_witness :
    ∃ (v : Int) (s' : LState Int) (L : List Int),
      pqPop ((pqPush intLt (pqNew (-1000) 1000) 5).2) =
        (Except.ok (some v), s') ∧
      chainData s' = some L ∧ ∀ u ∈ L, intLt v u = false :=
  C3_pop_returns_maximum
    (by intro a b hab; simp [intLt] at hab ⊢; omega)
    (by intro a b c h1 h2; simp [intLt] at h1 h2 ⊢; omega)
    (PQReach.push (pqNew (-1000) 1000) 5 (by decide) (by decide) PQReach.init)
    (by decide)

/-- C1: starting from construction, any sequence of `push`es whose
values all share one priority `p` (under the strict-weak-order
comparator), interleaved arbitrarily with `pop`s, produces exactly the
outputs of a plain FIFO queue: equal-priority values come out in
insertion order. -/
theorem C1_fifo_on_equal_priorities {α : Type} {cmp : α → α → Bool}
    (minv maxv p : α) (hneg : CmpNegTrans cmp) (ops : List (PQOp α))
    (hops : ∀ v, PQOp.push v ∈ ops → cmp v p = false ∧ cmp p v = false) :
    runPQ cmp (pqNew minv maxv) ops = (runFIFO [] ops).map Except.ok :=
  runPQ_fifo hneg ops (pqNew minv maxv) [] [] (chainRep_pqNew minv maxv)
    rfl (by simp) hops

/-- The comparator of the repository's FIFO tie test: compare pairs by
their first component only. -/
def pairCmp (a b : Int × Int) : Bool := decide (a.1 < b.1)

theorem C1_witness :
    runPQ pairCmp (pqNew ((-100 : Int), (0 : Int)) (100, 0))
      [PQOp.push (5, 101), PQOp.push (5, 102), PQOp.pop,
       PQOp.push (5, 103), PQOp.pop, PQOp.pop, PQOp.pop] =
    (runFIFO []
      [PQOp.push (5, 101), PQOp.push (5, 102), PQOp.pop,
       PQOp.push (5, 103), PQOp.pop, PQOp.pop, PQOp.pop]).map Except.ok :=
  C1_fifo_on_equal_priorities ((-100 : Int), (0 : Int)) (100, 0) (5, 0)
    (by intro a b c h1 h2; simp [pairCmp] at h1 h2 ⊢; omega)
    _
    (by
      intro v hv
      simp at hv
      rcases hv with rfl | rfl | rfl <;> exact ⟨by decide, by decide⟩)

/-- C2: the PQ push loop condition is `cmp(curr->value, value)` alone
(`pq_fine.h` line 85), not `cmp ∨ equal`: the search stops at the
*first* node of equal priority, so the new node is spliced in *before*
all existing elements of equal priority, not after them.  Two pushes
of equal priority land in the chain in reverse insertion order. -/
theorem C2_counterexample :
    chainData ((pqPush pairCmp ((pqPush pairCmp
        (pqNew ((-100 : Int), (0 : Int)) (100, 0)) (5, 101)).2) (5, 102)).2) =
      some [(5, 102), (5, 101)] ∧
    chainData ((pqPush pairCmp ((pqPush pairCmp
        (pqNew ((-100 : Int), (0 : Int)) (100, 0)) (5, 101)).2) (5, 102)).2) ≠
      some [(5, 101), (5, 102)] := by
  constructor
  · rfl
  · decide

/-- C2 (amended): `push(v)` traverses past exactly the nodes whose
values are *strictly less* than `v` under `cmp` (every skipped value
`x` has `cmp x v = true`), and splices the new node in *before* the
first node that is not less — in particular before all existing
elements of equal priority. -/
theorem C2_amended {α : Type} (cmp : α → α → Bool) {s : LState α}
    {data : List (Nat × α)} {hv tv : α} (v : α)
    (h : ChainRep s data hv tv) :
    ∃ s', pqPush cmp s v = (Except.ok (), s') ∧
      chainData s' = some ((data.takeWhile (fun q => cmp q.2 v)).map Prod.snd ++
        v :: (data.dropWhile (fun q => cmp q.2 v)).map Prod.snd) ∧
      ∀ x ∈ (data.takeWhile (fun q => cmp q.2 v)).map Prod.snd,
        cmp x v = true := by
  obtain ⟨s', heq, hrep', -, -, -, -⟩ := pqPush_spec cmp v h
  refine ⟨s', heq, ?_, ?_⟩
  · rw [chainData_spec hrep']
    simp
  · intro x hx
    obtain ⟨q, hq, hqx⟩ := List.mem_map.mp hx
    have hp := List.mem_takeWhile_imp hq
    rw [← hqx]
    exact hp

theorem C2_witness :
    ∃ s' : LState Int, pqPush intLt (pqNew (-1000) 1000) 5 = (Except.ok (), s') ∧
      chainData s' = some ((([] : List (Nat × Int)).takeWhile
          (fun q => intLt q.2 5)).map Prod.snd ++
        5 :: (([] : List (Nat × Int)).dropWhile
          (fun q => intLt q.2 5)).map Prod.snd) ∧
      ∀ x ∈ (([] : List (Nat × Int)).takeWhile (fun q => intLt q.2 5)).map Prod.snd,
        intLt x 5 = true :=
  C2_amended intLt 5 (chainRep_pqNew (-1000) 1000)

/-- C7: `add(v); remove(v)` does *not* preserve `contains(v)` from an
arbitrary state: starting from a state that already contains `5`, the
duplicate `add(5)` is a no-op (the set stores one copy), so the
`remove(5)` deletes the pre-existing node and `contains(5)` flips from
true to false. -/
theorem C7_counterexample :
    (fineContains (fineAdd setNew 5).2 5).1 = Except.ok true ∧
    (fineContains (fineRemove (fineAdd (fineAdd setNew 5).2 5).2 5).2 5).1 =
      Except.ok false ∧
    (Except.ok true : Except String Bool) ≠ Except.ok false := by
  exact ⟨rfl, rfl, fun h => Bool.noConfusion (Except.ok.inj h)⟩

/-- C7 (amended): on any reachable fine-set state, `add(v); remove(v)`
always leaves `contains(v) = false`; hence the pair preserves
`contains(v)` exactly when `v` was absent beforehand. -/
theorem C7_amended {s : LState Int} {v : Int}
    (hreach : SetReach s) :
    (fineContains (fineRemove (fineAdd s v).2 v).2 v).1 = Except.ok false ∧
    ((fineContains (fineRemove (fineAdd s v).2 v).2 v).1 = (fineContains s v).1 ↔
      (fineContains s v).1 = Except.ok false) := by
  obtain ⟨data, ⟨hrep, hsorted, hbnds⟩, hsz⟩ := setInv_reach hreach
  set p : Nat × Int → Bool := fun q => intLt q.2 v with hp
  rcases dropWhile_cases data v with ⟨c, S', hS⟩ | hS
  · -- v already present: add is a no-op, remove deletes the old node
    have hdup := fineAdd_dup hrep hS
    rw [hdup]
    obtain ⟨s', heqr, hrep', -, -, -, -⟩ := fineRemove_hit hrep hS
    have heqr2 : fineRemove ((Except.ok false, s) : Except String Bool × LState Int).2 v
        = (Except.ok true, s') := heqr
    rw [heqr2]
    set P := data.takeWhile p with hP
    have hPtrue : ∀ q ∈ P, p q = true := fun q hq => List.mem_takeWhile_imp hq
    have hdata : data = P ++ (c, v) :: S' := by
      conv_lhs => rw [← List.takeWhile_append_dropWhile p data]
      rw [hS]
    have hchainS : List.Chain' (· < ·) (v :: S'.map Prod.snd) := by
      rw [hdata] at hsorted
      simp only [List.map_append, List.map_cons] at hsorted
      exact (List.chain'_append.mp hsorted).2.1
    have hvlt : ∀ y ∈ (S'.map Prod.snd).head?, v < y :=
      (List.chain'_cons'.mp hchainS).1
    have hShead : ∀ q ∈ S'.head?, p q = false := by
      intro q hq
      cases hScase : S' with
      | nil => rw [hScase] at hq; simp at hq
      | cons a S2 =>
        rw [hScase] at hq
        simp at hq
        have hy : v < a.2 := hvlt a.2 (by rw [hScase]; rfl)
        rw [hq] at hy
        simp [hp, intLt]
        omega
    obtain ⟨-, hdw⟩ := tw_dw_append p P S' hPtrue hShead
    have hS2 : ∀ q ∈ ((P ++ S').dropWhile p).head?, q.2 ≠ v := by
      rw [hdw]
      intro q hq heqv
      have hy : v < q.2 := by
        apply hvlt
        rw [List.head?_map, Option.mem_def] at *
        rw [hq]
        rfl
      rw [heqv] at hy
      exact absurd hy (lt_irrefl v)
    have hcon' := fineContains_false hrep' hS2
    have hcon := fineContains_true hrep hS
    rw [hcon', hcon]
    exact ⟨rfl, by simp⟩
  · -- v absent: add inserts it, remove deletes exactly that node
    obtain ⟨s1, heq1, hrep1, hsz1, hh1, ht1, hl1⟩ := fineAdd_ins hrep hS
    rw [heq1]
    set P := data.takeWhile p with hP
    set S := data.dropWhile p with hSdef
    have hPtrue : ∀ q ∈ P, p q = true := fun q hq => List.mem_takeWhile_imp hq
    have hhead1 : ∀ q ∈ ((s.mem.length, v) :: S).head?, p q = false := by
      intro q hq
      simp at hq
      rw [← hq, hp]
      simp [intLt]
    obtain ⟨htw1, hdw1⟩ := tw_dw_append p P ((s.mem.length, v) :: S) hPtrue hhead1
    obtain ⟨s2, heq2, hrep2, -, -, -, -⟩ := fineRemove_hit hrep1 hdw1
    have heq2' : fineRemove ((Except.ok true, s1) :
        Except String Bool × LState Int).2 v = (Except.ok true, s2) := heq2
    rw [heq2']
    rw [htw1] at hrep2
    have hPS : P ++ S = data := List.takeWhile_append_dropWhile p data
    rw [hPS] at hrep2
    have hcon2 := fineContains_false hrep2 hS
    have hcon := fineContains_false hrep hS
    rw [hcon2, hcon]
    exact ⟨rfl, by simp⟩

theorem C7_witness :
    (fineContains (fineRemove (fineAdd setNew 5).2 5).2 5).1 = Except.ok false ∧
    ((fineContains (fineRemove (fineAdd setNew 5).2 5).2 5).1 =
        (fineContains setNew 5).1 ↔
      (fineContains setNew 5).1 = Except.ok false) :=
  C7_amended SetReach.init

/-- C9: `add(v); add(v)` does not increase `size()` by one from every
state: when `v` is already present, both calls are no-ops and the size
is unchanged across the pair.  Starting from a state containing `5`,
two further `add(5)` calls leave the size at `1`, not `2`. -/
theorem C9_counterexample :
    fineSize (fineAdd setNew 5).2 = 1 ∧
    fineSize (fineAdd (fineAdd (fineAdd setNew 5).2 5).2 5).2 = 1 ∧
    (1 : Nat) ≠ 1 + 1 := by
  exact ⟨rfl, rfl, by decide⟩

/-- C9 (amended): on any reachable fine-set state, the second of two
consecutive `add(v)` calls returns false and leaves the state of the
first call untouched (so the pair equals a single `add(v)`); the size
grows by one across the pair exactly when `v` was absent beforehand,
and not at all when it was present. -/
theorem C9_amended {s : LState Int} {v : Int}
    (hreach : SetReach s) :
    (fineAdd (fineAdd s v).2 v).1 = Except.ok false ∧
    (fineAdd (fineAdd s v).2 v).2 = (fineAdd s v).2 ∧
    ((fineContains s v).1 = Except.ok false →
      fineSize (fineAdd s v).2 = fineSize s + 1) ∧
    ((fineContains s v).1 = Except.ok true →
      fineSize (fineAdd s v).2 = fineSize s) := by
  obtain ⟨data, ⟨hrep, hsorted, hbnds⟩, hsz⟩ := setInv_reach hreach
  set p : Nat × Int → Bool := fun q => intLt q.2 v with hp
  rcases dropWhile_cases data v with ⟨c, S', hS⟩ | hS
  · -- v already present: both adds are no-ops
    have hdup := fineAdd_dup hrep hS
    have hcon := fineContains_true hrep hS
    rw [hdup]
    refine ⟨?_, ?_, ?_, ?_⟩
    · have : fineAdd ((Except.ok false, s) :
          Except String Bool × LState Int).2 v = (Except.ok false, s) := hdup
      rw [this]
    · have : fineAdd ((Except.ok false, s) :
          Except String Bool × LState Int).2 v = (Except.ok false, s) := hdup
      rw [this]
    · intro hcf
      rw [hcon] at hcf
      exact absurd (Except.ok.inj hcf) (by decide)
    · intro hct
      rfl
  · -- v absent: the first add inserts, the second is a no-op
    obtain ⟨s1, heq1, hrep1, hsz1, hh1, ht1, hl1⟩ := fineAdd_ins hrep hS
    have hcon := fineContains_false hrep hS
    rw [heq1]
    set P := data.takeWhile p with hP
    set S := data.dropWhile p with hSdef
    have hPtrue : ∀ q ∈ P, p q = true := fun q hq => List.mem_takeWhile_imp hq
    have hhead1 : ∀ q ∈ ((s.mem.length, v) :: S).head?, p q = false := by
      intro q hq
      simp at hq
      rw [← hq, hp]
      simp [intLt]
    obtain ⟨htw1, hdw1⟩ := tw_dw_append p P ((s.mem.length, v) :: S) hPtrue hhead1
    have hdup1 := fineAdd_dup hrep1 hdw1
    refine ⟨?_, ?_, ?_, ?_⟩
    · have : fineAdd ((Except.ok true, s1) :
          Except String Bool × LState Int).2 v = (Except.ok false, s1) := hdup1
      rw [this]
    · have : fineAdd ((Except.ok true, s1) :
          Except String Bool × LState Int).2 v = (Except.ok false, s1) := hdup1
      rw [this]
    · intro hcf
      exact hsz1
    · intro hct
      rw [hcon] at hct
      exact absurd (Except.ok.inj hct) (by decide)

theorem C9_witness :
    (fineAdd (fineAdd setNew 5).2 5).1 = Except.ok false ∧
    (fineAdd (fineAdd setNew 5).2 5).2 = (fineAdd setNew 5).2 ∧
    ((fineContains setNew 5).1 = Except.ok false →
      fineSize (fineAdd setNew 5).2 = fineSize setNew + 1) ∧
    ((fineContains setNew 5).1 = Except.ok true →
      fineSize (fineAdd setNew 5).2 = fineSize setNew) :=
  C9_amended SetReach.init

/-- A chain-wise well-formed but size-inconsistent state: one data
node holding `5`, yet `current_size` says 99.  The set variants'
`check_invariants` accepts it. -/
def badS : LState Int :=
  { mem := [⟨INTMAX, none⟩, ⟨INTMIN, some 2⟩, ⟨5, some 0⟩],
    head := 1, tail := 0, sz := 99 }

/-- C8: the set variants' `check_invariants` never consults
`current_size`: it accepts a state whose chain holds exactly one data
node while the stored size counter says 99, so it does not audit
size-consistency.  (Only the PQ variant checks the counter.) -/
theorem C8_counterexample :
    fineCheckInv badS = true ∧ chainData badS = some [5] ∧
    badS.sz = 99 ∧ [(5 : Int)].length ≠ badS.sz := by
  exact ⟨rfl, rfl, rfl, by decide⟩

/-- C8 (amended): a true return from the set variants'
`check_invariants` guarantees order and reachability only — the walk
from `head` reaches `tail` and the visited values are non-decreasing —
and the three set bodies are literally identical; the PQ variant
additionally audits the size counter: a true return implies the number
of data nodes equals `current_size`. -/
theorem C8_amended :
    (∀ s : LState Int, fineCheckInv s = true →
      ∃ c0 L, nextAt s s.head = some c0 ∧
        walks s (some c0) L (some s.tail) ∧
        List.Chain' (· ≤ ·) (L.map Prod.snd)) ∧
    coarseCheckInv = fineCheckInv ∧ seqCheckInv = fineCheckInv ∧
    (∀ (α : Type) (cmp : α → α → Bool) (s : LState α), pqCheckInv cmp s = true →
      ∃ c0 L, nextAt s s.head = some c0 ∧
        walks s (some c0) L (some s.tail) ∧
        List.Chain' (fun a b => cmp b a = false) (L.map Prod.snd) ∧
        L.length = s.sz) := by
  refine ⟨?_, rfl, rfl, ?_⟩
  · intro s h
    unfold fineCheckInv at h
    cases hn : nextAt s s.head with
    | none => rw [hn] at h; exact absurd h (by simp)
    | some c0 =>
      rw [hn] at h
      obtain ⟨L, hw, hch, hdisj⟩ := setCheckLoop_sound s _ s.head c0 h
      refine ⟨c0, L, rfl, hw, ?_⟩
      rcases hdisj with hnil | ⟨pv, hpv⟩
      · rw [hnil]; simp
      · exact (List.chain'_cons'.mp (hch pv hpv)).2
  · intro α cmp s h
    unfold pqCheckInv at h
    cases hn : nextAt s s.head with
    | none => rw [hn] at h; exact absurd h (by simp)
    | some c0 =>
      rw [hn] at h
      obtain ⟨L, hw, hch, hcount, hdisj⟩ := pqCheckLoop_sound cmp s _ s.head c0 0 h
      refine ⟨c0, L, rfl, hw, ?_, by omega⟩
      rcases hdisj with hnil | ⟨pv, hpv⟩
      · rw [hnil]; simp
      · exact (List.chain'_cons'.mp (hch pv hpv)).2

theorem C8_witness :
    (∃ c0 L, nextAt badS badS.head = some c0 ∧
      walks badS (some c0) L (some badS.tail) ∧
      List.Chain' (· ≤ ·) (L.map Prod.snd)) ∧
    (∃ c0 L, nextAt (pqNew (-7 : Int) 7) (pqNew (-7 : Int) 7).head = some c0 ∧
      walks (pqNew (-7 : Int) 7) (some c0) L (some (pqNew (-7 : Int) 7).tail) ∧
      List.Chain' (fun a b => intLt b a = false) (L.map Prod.snd) ∧
      L.length = (pqNew (-7 : Int) 7).sz) :=
  ⟨C8_amended.1 badS (by decide),
   C8_amended.2.2.2 Int intLt (pqNew (-7) 7) (by decide)⟩
